import Mathlib

/-!
# Robot Odyssey Rewired: SBT86 runtime and output queue

A shallow embedding of `src/sbt86.h` (the flag accessors of `SBTRegs`) and of
`src/output.cpp` (`OutputQueue`), followed by theorems about them.

Conventions of the embedding:

* `uint32_t`, `uint16_t` and `uint8_t` values are natural numbers; arithmetic
  that can leave the 32-bit range is reduced modulo `2 ^ 32` explicitly.
  `int32_t` values are integers, wrapped with `wrapInt32`.
* Arrays (`rgb_pixels`, `pcm_samples`, `CGAFramebuffer::bytes`) are functions
  from an index to a value; a store is `storeAt`.
* The calls into Javascript (`Module.onRenderFrame`, `Module.onRenderSound`)
  are recorded, in order, in a list of `SinkCall`.
* `hardware.h` is not among the sources: its constants are the fields of
  `Config`, and the bounded containers it declares are lists with a capacity.
-/

namespace SBT86

/-! ## `SBTRegs` (sbt86.h) -/

/-- Register state of the virtual 8086: `class SBTRegs`. The byte halves
`al`, `ah`, ... are views of the 16-bit registers and are not stored apart. -/
structure SBTRegs where
  ax : Nat
  bx : Nat
  cx : Nat
  dx : Nat
  si : Nat
  di : Nat
  cs : Nat
  ds : Nat
  es : Nat
  ss : Nat
  bp : Nat
  sp : Nat
  uresult : Nat
  sresult : Int

namespace SBTRegs

/-- The `int` constant `~0xFFFF` converted to `uint32_t`, as `&=` on a
`uint32_t` does. -/
def notFFFF : Nat := 2 ^ 32 - 1 - 0xFFFF

/-- Source: `(uresult & 0xFFFF) == 0` -/
def getZF (r : SBTRegs) : Bool := decide (r.uresult &&& 0xFFFF = 0)

/-- Source: `(uresult & 0x8000) != 0` -/
def getSF (r : SBTRegs) : Bool := decide (r.uresult &&& 0x8000 ≠ 0)

/-- Source: `(((sresult >> 1) ^ (sresult)) & 0x8000) != 0` -/
def getOF (r : SBTRegs) : Bool :=
  decide (Int.land (Int.xor (r.sresult >>> 1) r.sresult) 0x8000 ≠ 0)

/-- Source: `(uresult & 0x10000) != 0` -/
def getCF (r : SBTRegs) : Bool := decide (r.uresult &&& 0x10000 ≠ 0)

/-- Source: `uresult &= ~0xFFFF` -/
def setZF (r : SBTRegs) : SBTRegs := { r with uresult := r.uresult &&& notFFFF }

/-- Source: `uresult |= 1` -/
def clearZF (r : SBTRegs) : SBTRegs := { r with uresult := r.uresult ||| 1 }

/-- Source: `sresult = 0x8000` -/
def setOF (r : SBTRegs) : SBTRegs := { r with sresult := 0x8000 }

/-- Source: `sresult = 0` -/
def clearOF (r : SBTRegs) : SBTRegs := { r with sresult := 0 }

/-- Source: `uresult |= 0x10000` -/
def setCF (r : SBTRegs) : SBTRegs := { r with uresult := r.uresult ||| 0x10000 }

/-- Source: `uresult &= 0xFFFF` -/
def clearCF (r : SBTRegs) : SBTRegs := { r with uresult := r.uresult &&& 0xFFFF }

/-- Source: `return uresult & 0x10000` -/
def saveCF (r : SBTRegs) : Nat := r.uresult &&& 0x10000

/-- Source: `uresult = (uresult & 0xFFFF) | saved` -/
def restoreCF (r : SBTRegs) (saved : Nat) : SBTRegs :=
  { r with uresult := (r.uresult &&& 0xFFFF) ||| saved }

/-- A register state with the given result pair and every register zero. -/
def ofResults (u : Nat) (s : Int) : SBTRegs :=
  { ax := 0, bx := 0, cx := 0, dx := 0, si := 0, di := 0, cs := 0, ds := 0,
    es := 0, ss := 0, bp := 0, sp := 0, uresult := u, sresult := s }

end SBTRegs

/-! ## Constants and containers of `hardware.h` -/

/-- The compile-time constants that `output.cpp` takes from `hardware.h`
(not among the sources): the capacities of the two bounded containers, the
geometry of a CGA frame and of the screen, the audio constants and the
palette table. The pixel and byte indices that `dequeueCGAFrame` forms from
the geometry address arrays held in memory, far below `2 ^ 32`, so that
index arithmetic is taken without wrap-around. -/
structure Config where
  ITEM_CAPACITY : Nat
  FRAME_CAPACITY : Nat
  WIDTH : Nat
  HEIGHT : Nat
  ZOOM : Nat
  SCREEN_WIDTH : Nat
  SCREEN_HEIGHT : Nat
  AUDIO_BUFFER_SAMPLES : Nat
  CPU_CLOCKS_PER_SAMPLE : Nat
  AUDIO_HZ : Nat
  cga_palette : Nat → Nat

/-- Modelled from the spec: the bounded container type of `items` and
`frames` is declared outside the sources. It is "an ordered item queue
(bounded)": a list, oldest element first, that is full once it holds
`cap` elements. `push_back` appends, `pop_front` drops the head. -/
def full {α : Type} (cap : Nat) (l : List α) : Bool := decide (cap ≤ l.length)

/-- Source `struct OutputItem`: the tag `otype` together with the member of the
union `u` that the tag selects. -/
inductive OutputItem where
  | OUT_CGA_FRAME
  | OUT_RGB_FRAME
  | OUT_DELAY (delay : Nat)
  | OUT_SPEAKER_TIMESTAMP (timestamp : Nat)
deriving DecidableEq

/-- Source `struct CGAFramebuffer`: the raw bytes of a captured frame. -/
structure CGAFramebuffer where
  bytes : Nat → Nat

/-- The state of `class OutputQueue`. -/
structure OutputQueue where
  items : List OutputItem
  frames : List CGAFramebuffer
  rgb_pixels : Nat → Nat
  pcm_samples : Nat → Int
  delay_remaining : Nat

/-- One synchronous call into Javascript. -/
inductive SinkCall where
  | onRenderFrame (pixels : List Nat)
  | onRenderSound (samples : List Int) (hz : Nat)

/-- Why a run of the model stops without a value: a C `assert` failed, or
the fuel of a loop ran out. -/
inductive RunError where
  | assertFailed
  | outOfFuel
deriving DecidableEq

/-- Outcome of a push that can trip `assert(0)`; either way it carries the
state of the queue at that point. -/
inductive PushResult where
  | ok (q : OutputQueue)
  | fatal (q : OutputQueue)

/-- The queue carried by a push outcome. -/
def PushResult.state : PushResult → OutputQueue
  | .ok q => q
  | .fatal q => q

/-- Whether the push tripped its assertion. -/
def PushResult.isFatal : PushResult → Bool
  | .ok _ => false
  | .fatal _ => true

/-- The result of `OutputQueue::run`: the returned delay, the sink calls it
made, and the state it leaves. -/
structure RunResult where
  ret : Nat
  calls : List SinkCall
  q : OutputQueue

/-! ## Machine arithmetic -/

/-- Conversion of an integer to `uint32_t`. -/
def wrapUInt32 (x : Int) : Nat := (x % 2 ^ 32).toNat

/-- Conversion of an integer to `int32_t` (two's complement wrap). -/
def wrapInt32 (x : Int) : Int := (x + 2 ^ 31) % 2 ^ 32 - 2 ^ 31

/-- The array store `a[i] = v`. -/
def storeAt {β : Type} (a : Nat → β) (i : Nat) (v : β) : Nat → β :=
  fun j => if j = i then v else a j

/-! ## `OutputQueue` (output.cpp) -/

namespace OutputQueue

/-- Source: `static const uint32_t max_delay_per_step = 100` -/
def max_delay_per_step : Nat := 100

/-- The loop of `skipDelay`:
`while (!items.empty() && items.front().otype == OUT_DELAY) items.pop_front()` -/
def skipDelayLoop : List OutputItem → List OutputItem
  | OutputItem.OUT_DELAY _ :: rest => skipDelayLoop rest
  | l => l

/-- Source `OutputQueue::skipDelay` -/
def skipDelay (q : OutputQueue) : OutputQueue :=
  { q with delay_remaining := 0, items := skipDelayLoop q.items }

/-- Source `OutputQueue::clear` -/
def clear (q : OutputQueue) : OutputQueue :=
  skipDelay { q with items := [], frames := [] }

/-- Source `OutputQueue::pushFrameCGA`. The `SBTStack` argument is only used to
print a trace before the assertion. -/
def pushFrameCGA (c : Config) (q : OutputQueue) (framebuffer : CGAFramebuffer) :
    PushResult :=
  if full c.FRAME_CAPACITY q.frames || full c.ITEM_CAPACITY q.items then
    PushResult.fatal q
  else
    PushResult.ok { q with items := q.items ++ [OutputItem.OUT_CGA_FRAME],
                           frames := q.frames ++ [framebuffer] }

/-- Source `OutputQueue::pushFrameRGB`; `memcpy` overwrites the whole of
`rgb_pixels`, which has `SCREEN_WIDTH * SCREEN_HEIGHT` elements. -/
def pushFrameRGB (c : Config) (q : OutputQueue) (framebuffer : Nat → Nat) :
    PushResult :=
  if full c.ITEM_CAPACITY q.items then
    PushResult.fatal q
  else
    PushResult.ok { q with
      items := q.items ++ [OutputItem.OUT_RGB_FRAME],
      rgb_pixels := fun i =>
        if i < c.SCREEN_WIDTH * c.SCREEN_HEIGHT then framebuffer i else q.rgb_pixels i }

/-- Source `OutputQueue::pushDelay` -/
def pushDelay (c : Config) (q : OutputQueue) (millis : Nat) : OutputQueue :=
  if !full c.ITEM_CAPACITY q.items then
    { q with items := q.items ++ [OutputItem.OUT_DELAY millis] }
  else q

/-- Source `OutputQueue::pushSpeakerTimestamp` -/
def pushSpeakerTimestamp (c : Config) (q : OutputQueue) (timestamp : Nat) :
    PushResult :=
  if full c.ITEM_CAPACITY q.items then
    PushResult.fatal q
  else
    PushResult.ok { q with items := q.items ++ [OutputItem.OUT_SPEAKER_TIMESTAMP timestamp] }

/-- The two innermost loops of `dequeueCGAFrame`: fill a `ZOOM` by `ZOOM`
block whose top-left pixel is at offset `rgb_line`. -/
def zoomPixel (c : Config) (px : Nat → Nat) (rgb_line rgb : Nat) : Nat → Nat :=
  (List.range c.ZOOM).foldl
    (fun px zy =>
      (List.range c.ZOOM).foldl
        (fun px zx => storeAt px (rgb_line + (zx + zy * c.SCREEN_WIDTH)) rgb) px)
    px

/-- The colour looked up for source pixel `x` of line `y` of a plane. -/
def pixelColor (c : Config) (frame : CGAFramebuffer) (plane y x : Nat) : Nat :=
  let byte := 0x2000 * plane + (x + c.WIDTH * y) / 4
  let bit := 3 - (x % 4)
  let color := 0x3 &&& (frame.bytes byte >>> (bit * 2))
  c.cga_palette color

/-- The `x` loop of `dequeueCGAFrame`; the state pairs the pixel buffer with
the moving pointer `rgb_line` (as an offset into `rgb_pixels`). -/
def decodeLine (c : Config) (frame : CGAFramebuffer) (plane y : Nat)
    (px : Nat → Nat) : Nat → Nat :=
  ((List.range c.WIDTH).foldl
    (fun (st : (Nat → Nat) × Nat) x =>
      (zoomPixel c st.1 st.2 (pixelColor c frame plane y x), st.2 + c.ZOOM))
    (px, (y * 2 + plane) * c.SCREEN_WIDTH * c.ZOOM)).1

/-- The `y` loop of `dequeueCGAFrame`. -/
def decodePlane (c : Config) (frame : CGAFramebuffer) (plane : Nat)
    (px : Nat → Nat) : Nat → Nat :=
  (List.range (c.HEIGHT / 2)).foldl (fun px y => decodeLine c frame plane y px) px

/-- The `plane` loop of `dequeueCGAFrame`: expand CGA colour to RGBA. -/
def decodeCGA (c : Config) (frame : CGAFramebuffer) (px : Nat → Nat) : Nat → Nat :=
  (List.range 2).foldl (fun px plane => decodePlane c frame plane px) px

/-- Source `OutputQueue::dequeueCGAFrame`; `none` when `assert(!frames.empty())`
fails. -/
def dequeueCGAFrame (c : Config) (q : OutputQueue) : Option OutputQueue :=
  match q.frames with
  | [] => none
  | frame :: rest =>
    some { q with rgb_pixels := decodeCGA c frame q.rgb_pixels, frames := rest }

/-- Source `OutputQueue::renderFrame`: the whole of `rgb_pixels` goes to the sink. -/
def renderFrame (c : Config) (q : OutputQueue) : SinkCall :=
  SinkCall.onRenderFrame ((List.range (c.SCREEN_WIDTH * c.SCREEN_HEIGHT)).map q.rgb_pixels)

/-- The local variables of `renderSoundEffect` and the members it changes. -/
structure SoundState where
  items : List OutputItem
  pcm_samples : Nat → Int
  previous_timestamp : Nat
  next_sample : Int
  sample_count : Nat
  clocks_remaining : Int

/-- The loop condition of `renderSoundEffect`. -/
def soundCond (c : Config) (s : SoundState) : Bool :=
  decide (s.sample_count < c.AUDIO_BUFFER_SAMPLES) && decide (0 ≤ s.clocks_remaining)

/-- The first three statements of the loop body of `renderSoundEffect`. -/
def soundEmit (c : Config) (s : SoundState) : SoundState :=
  { s with pcm_samples := storeAt s.pcm_samples s.sample_count s.next_sample,
           clocks_remaining := wrapInt32 (s.clocks_remaining - c.CPU_CLOCKS_PER_SAMPLE),
           sample_count := s.sample_count + 1 }

/-- The statements of `renderSoundEffect` that consume a speaker timestamp. -/
def soundToggle (s : SoundState) (timestamp : Nat) (rest : List OutputItem) : SoundState :=
  { s with items := rest,
           clocks_remaining :=
             wrapInt32 (s.clocks_remaining +
               (wrapUInt32 ((timestamp : Int) - (s.previous_timestamp : Int)) : Int)),
           previous_timestamp := timestamp,
           next_sample := if s.next_sample = 0 then 1 else 0 }

/-- The `while` loop of `renderSoundEffect`, with fuel. -/
def soundLoop (c : Config) : Nat → SoundState → Except RunError SoundState
  | 0, s => if soundCond c s then Except.error RunError.outOfFuel else Except.ok s
  | fuel + 1, s =>
    if soundCond c s then
      let s1 := soundEmit c s
      if s1.clocks_remaining < 0 then
        match s1.items with
        | OutputItem.OUT_SPEAKER_TIMESTAMP timestamp :: rest =>
          soundLoop c fuel (soundToggle s1 timestamp rest)
        | _ => Except.ok s1
      else soundLoop c fuel s1
    else Except.ok s

/-- The state in which the loop of `renderSoundEffect` starts. -/
def soundInit (q : OutputQueue) (first_timestamp : Nat) : SoundState :=
  { items := q.items, pcm_samples := q.pcm_samples,
    previous_timestamp := first_timestamp, next_sample := 1,
    sample_count := 0, clocks_remaining := 0 }

/-- Source: `(sample_count * 1000 + AUDIO_HZ - 1) / AUDIO_HZ` in `uint32_t`. -/
def soundMillis (c : Config) (sample_count : Nat) : Nat :=
  wrapUInt32 ((sample_count : Int) * 1000 + (c.AUDIO_HZ : Int) - 1) / c.AUDIO_HZ

/-- Source `OutputQueue::renderSoundEffect`: the returned delay, the call to the
audio sink and the new state. -/
def renderSoundEffect (c : Config) (q : OutputQueue) (first_timestamp : Nat) :
    Except RunError (Nat × SinkCall × OutputQueue) :=
  match soundLoop c c.AUDIO_BUFFER_SAMPLES (soundInit q first_timestamp) with
  | Except.error e => Except.error e
  | Except.ok s =>
    Except.ok (soundMillis c s.sample_count,
      SinkCall.onRenderSound ((List.range s.sample_count).map s.pcm_samples) c.AUDIO_HZ,
      { q with items := s.items, pcm_samples := s.pcm_samples })

/-- The body of the `switch (item.otype)` of `OutputQueue::run`, applied to
the queue `q1` from which `item` was just popped: the new state and the sink
calls made. -/
def dispatch (c : Config) (q1 : OutputQueue) (item : OutputItem) :
    Except RunError (OutputQueue × List SinkCall) :=
  match item with
  | OutputItem.OUT_CGA_FRAME =>
    match dequeueCGAFrame c q1 with
    | none => Except.error RunError.assertFailed
    | some q2 => Except.ok (q2, [renderFrame c q2])
  | OutputItem.OUT_RGB_FRAME => Except.ok (q1, [renderFrame c q1])
  | OutputItem.OUT_DELAY delay =>
    Except.ok ({ q1 with delay_remaining := (q1.delay_remaining + delay) % 2 ^ 32 }, [])
  | OutputItem.OUT_SPEAKER_TIMESTAMP timestamp =>
    match renderSoundEffect c q1 timestamp with
    | Except.error e => Except.error e
    | Except.ok (ms, call, q2) =>
      Except.ok ({ q2 with delay_remaining := (q2.delay_remaining + ms) % 2 ^ 32 }, [call])

/-- The `while (true)` loop of `OutputQueue::run`, with fuel; `out` collects
the sink calls made so far. -/
def runLoop (c : Config) : Nat → OutputQueue → List SinkCall → Except RunError RunResult
  | 0, _, _ => Except.error RunError.outOfFuel
  | fuel + 1, q, out =>
    if 0 < q.delay_remaining then
      let delay := min q.delay_remaining max_delay_per_step
      Except.ok { ret := delay, calls := out,
                  q := { q with delay_remaining := q.delay_remaining - delay } }
    else
      match q.items with
      | [] => Except.ok { ret := 0, calls := out, q := q }
      | item :: rest =>
        match dispatch c { q with items := rest } item with
        | Except.error e => Except.error e
        | Except.ok (q2, calls) => runLoop c fuel q2 (out ++ calls)

/-- Source `OutputQueue::run`. Every iteration that does not return removes an
item, so one more iteration than there are items is enough fuel. -/
def run (c : Config) (q : OutputQueue) : Except RunError RunResult :=
  runLoop c (q.items.length + 1) q []

/-- The host loop: `n` successive calls of `run`, collecting the returned
delays and the sink calls. -/
def runTimes (c : Config) : Nat → OutputQueue →
    Except RunError (List Nat × List SinkCall × OutputQueue)
  | 0, q => Except.ok ([], [], q)
  | n + 1, q =>
    match run c q with
    | Except.error e => Except.error e
    | Except.ok r =>
      match runTimes c n r.q with
      | Except.error e => Except.error e
      | Except.ok (rets, calls, q2) => Except.ok (r.ret :: rets, r.calls ++ calls, q2)

/-- The returns that the delay-splitting rule promises for one delay of `d`
milliseconds: `d / 100` times 100, then `d % 100` when that is not zero. -/
def delayReturns (d : Nat) : List Nat :=
  List.replicate (d / 100) 100 ++ (if d % 100 = 0 then [] else [d % 100])

/-! ### The producer side, for statements about sequences of pushes -/

/-- One call of a push method, with its argument. -/
inductive PushOp where
  | frameCGA (framebuffer : CGAFramebuffer)
  | frameRGB (framebuffer : Nat → Nat)
  | delay (millis : Nat)
  | speaker (timestamp : Nat)

/-- The item that a successful push appends. -/
def PushOp.item : PushOp → OutputItem
  | PushOp.frameCGA _ => OutputItem.OUT_CGA_FRAME
  | PushOp.frameRGB _ => OutputItem.OUT_RGB_FRAME
  | PushOp.delay millis => OutputItem.OUT_DELAY millis
  | PushOp.speaker timestamp => OutputItem.OUT_SPEAKER_TIMESTAMP timestamp

/-- The captured frame that a push stores in the ring, if any. -/
def PushOp.frame : PushOp → Option CGAFramebuffer
  | PushOp.frameCGA framebuffer => some framebuffer
  | _ => none

/-- One push that succeeds: `none` when the method trips its assertion, and
also when `pushDelay` finds the queue full and drops the delay. -/
def pushOp (c : Config) (q : OutputQueue) : PushOp → Option OutputQueue
  | PushOp.frameCGA framebuffer =>
    match pushFrameCGA c q framebuffer with
    | PushResult.ok q2 => some q2
    | PushResult.fatal _ => none
  | PushOp.frameRGB framebuffer =>
    match pushFrameRGB c q framebuffer with
    | PushResult.ok q2 => some q2
    | PushResult.fatal _ => none
  | PushOp.delay millis =>
    if full c.ITEM_CAPACITY q.items then none else some (pushDelay c q millis)
  | PushOp.speaker timestamp =>
    match pushSpeakerTimestamp c q timestamp with
    | PushResult.ok q2 => some q2
    | PushResult.fatal _ => none

/-- A sequence of pushes, all of which succeed. -/
def pushAll (c : Config) : OutputQueue → List PushOp → Option OutputQueue
  | q, [] => some q
  | q, op :: ops =>
    match pushOp c q op with
    | none => none
    | some q2 => pushAll c q2 ops

/-- Whether a sink call is a frame handed to `Module.onRenderFrame`. -/
def isFrameCall : SinkCall → Bool
  | SinkCall.onRenderFrame _ => true
  | SinkCall.onRenderSound _ _ => false

/-- The pixel buffer after a list of pushed events has been consumed in
order, each CGA frame event decoding the frame that was pushed with it. -/
def framePixels (c : Config) : List PushOp → (Nat → Nat) → (Nat → Nat)
  | [], px => px
  | PushOp.frameCGA framebuffer :: ops, px => framePixels c ops (decodeCGA c framebuffer px)
  | _ :: ops, px => framePixels c ops px

/-- The frames that reach the rendering sink when a list of pushed events is
consumed in order, each CGA frame event decoding the frame that was pushed
with it. -/
def expectedFrameCalls (c : Config) : List PushOp → (Nat → Nat) → List SinkCall
  | [], _ => []
  | PushOp.frameCGA framebuffer :: ops, px =>
    SinkCall.onRenderFrame
        ((List.range (c.SCREEN_WIDTH * c.SCREEN_HEIGHT)).map (decodeCGA c framebuffer px)) ::
      expectedFrameCalls c ops (decodeCGA c framebuffer px)
  | PushOp.frameRGB _ :: ops, px =>
    SinkCall.onRenderFrame ((List.range (c.SCREEN_WIDTH * c.SCREEN_HEIGHT)).map px) ::
      expectedFrameCalls c ops px
  | PushOp.delay _ :: ops, px => expectedFrameCalls c ops px
  | PushOp.speaker _ :: ops, px => expectedFrameCalls c ops px

/-- The queue holds exactly the events `ops`, oldest first: their items in
the item queue and their frames in the ring. -/
def Queued (ops : List PushOp) (q : OutputQueue) : Prop :=
  q.items = ops.map PushOp.item ∧ q.frames = ops.filterMap PushOp.frame

/-! ### Small concrete instances -/

/-- A small configuration: a 4 by 2 source frame zoomed by 2 onto an 8 by 4
screen, room for eight items and two frames. -/
def demoConfig : Config :=
  { ITEM_CAPACITY := 8, FRAME_CAPACITY := 2, WIDTH := 4, HEIGHT := 2, ZOOM := 2,
    SCREEN_WIDTH := 8, SCREEN_HEIGHT := 4, AUDIO_BUFFER_SAMPLES := 16,
    CPU_CLOCKS_PER_SAMPLE := 100, AUDIO_HZ := 44100, cga_palette := fun n => n }

/-- A queue with nothing in it and all buffers zero. -/
def emptyQueue : OutputQueue :=
  { items := [], frames := [], rgb_pixels := fun _ => 0, pcm_samples := fun _ => 0,
    delay_remaining := 0 }

/-- A frame whose every byte is `0x1B`: the four pixels of a byte have the
colours 0, 1, 2, 3 from left to right. -/
def demoFrame : CGAFramebuffer := { bytes := fun _ => 0x1B }

/-- Four pushes: a CGA frame, a delay of 5 ms and two speaker timestamps. -/
def demoOps : List PushOp :=
  [PushOp.frameCGA demoFrame, PushOp.delay 5, PushOp.speaker 0, PushOp.speaker 100]

/-! ### The square wave of the speaker -/

/-- The sample level after a number of toggles: high (1) after an even
number, low (0) after an odd number. -/
def level (toggles : Nat) : Int := if toggles % 2 = 0 then 1 else 0

/-- The last of the timestamps `t0, t1, ..., tk`. -/
def lastTimestamp : Nat → List Nat → Nat
  | t0, [] => t0
  | _, t :: ts => lastTimestamp t ts

/-- The number of toggles that take effect at or before sample index `i`:
the toggle that ends the interval begun at timestamp `t` takes effect at
index `(t - t0) / C + 1`. -/
def togglesBefore (C t0 : Nat) (ts : List Nat) (i : Nat) : Nat :=
  ts.countP (fun t => decide ((t - t0) / C < i))

/-! ### Reachable states -/

/-- The number of CGA frame items in an item queue. -/
def cgaCount : List OutputItem → Nat
  | [] => 0
  | OutputItem.OUT_CGA_FRAME :: rest => cgaCount rest + 1
  | _ :: rest => cgaCount rest

/-- The states of an `OutputQueue` that a client can reach: the constructor
calls `clear`, and from then on any public method may be called; `run` leads
to a next state when it returns. A push that trips its assertion leaves the
state it found. -/
inductive Reachable (c : Config) : OutputQueue → Prop where
  | constructed (q0 : OutputQueue) : Reachable c (clear q0)
  | afterClear {q : OutputQueue} : Reachable c q → Reachable c (clear q)
  | afterSkipDelay {q : OutputQueue} : Reachable c q → Reachable c (skipDelay q)
  | afterPushFrameCGA {q : OutputQueue} (framebuffer : CGAFramebuffer) :
      Reachable c q → Reachable c (pushFrameCGA c q framebuffer).state
  | afterPushFrameRGB {q : OutputQueue} (framebuffer : Nat → Nat) :
      Reachable c q → Reachable c (pushFrameRGB c q framebuffer).state
  | afterPushDelay {q : OutputQueue} (millis : Nat) :
      Reachable c q → Reachable c (pushDelay c q millis)
  | afterPushSpeakerTimestamp {q : OutputQueue} (timestamp : Nat) :
      Reachable c q → Reachable c (pushSpeakerTimestamp c q timestamp).state
  | afterRun {q : OutputQueue} {res : RunResult} :
      Reachable c q → run c q = Except.ok res → Reachable c res.q

end OutputQueue

/-! ## Operands of `SBTRegs` results -/

namespace SBTRegs

/-- Sign extension of a 16-bit operand: the value of `(int16_t) a`. -/
def sext16 (a : Nat) : Int := if a < 2 ^ 15 then (a : Int) else (a : Int) - 2 ^ 16

end SBTRegs

/-! ## `SBTHardware` and `SBTSegmentCache` (sbt86.h) -/

namespace SBTHardware

/-- Source: `static const uint32_t MEM_SIZE = 256 * 1024` -/
def MEM_SIZE : Nat := 256 * 1024

/-- Source: `static const uint32_t MAX_SEGMENT = (MEM_SIZE - 0x10000) >> 4` -/
def MAX_SEGMENT : Nat := (MEM_SIZE - 0x10000) >>> 4

/-- Modelled from the spec: the body of `SBTHardware::memSeg` is not among
the sources, only its declaration and the constants are. The spec has
"effective_address = (segment × 16) + offset, where segment is clamped to a
maximum index before translation", and the header has "Any segments over
MAX_SEGMENT get remapped to MAX_SEGMENT". The result is the offset into
`mem` of the returned pointer. -/
def memSeg (seg : Nat) : Nat := (min seg MAX_SEGMENT) <<< 4

/-- The linear address, an index into `mem`, of `seg:off`. -/
def linearAddress (seg off : Nat) : Nat := memSeg seg + off

end SBTHardware

namespace SBTSegmentCache

/-- Source: `return ptr[0] | (ptr[1] << 8)`, converted to `uint16_t`; `mem`
is the byte array and `ptr` an index into it. -/
def read16 (mem : Nat → Nat) (ptr : Nat) : Nat :=
  (mem ptr ||| (mem (ptr + 1) <<< 8)) % 2 ^ 16

/-- Source: `ptr[0] = (uint8_t) x; ptr[1] = x >> 8;`, each store converting
to `uint8_t`. -/
def write16 (mem : Nat → Nat) (ptr : Nat) (x : Nat) : Nat → Nat :=
  storeAt (storeAt mem ptr (x % 2 ^ 8)) (ptr + 1) ((x >>> 8) % 2 ^ 8)

end SBTSegmentCache

/-! ## Theorems: flags of `SBTRegs` -/

namespace SBTRegs

theorem or_and_mask (a b m : Nat) : (a ||| b) &&& m = (a &&& m) ||| (b &&& m) := by
  rw [Nat.and_comm, Nat.and_or_distrib_left, Nat.and_comm m a, Nat.and_comm m b]

theorem setZF_low (u : Nat) : (u &&& notFFFF) &&& 0xFFFF = 0 := by
  rw [Nat.and_assoc, show (notFFFF &&& 0xFFFF : Nat) = 0 from by decide, Nat.and_zero]

theorem setZF_sign (u : Nat) : (u &&& notFFFF) &&& 0x8000 = 0 := by
  rw [Nat.and_assoc, show (notFFFF &&& 0x8000 : Nat) = 0 from by decide, Nat.and_zero]

theorem setZF_carry (u : Nat) : (u &&& notFFFF) &&& 0x10000 = u &&& 0x10000 := by
  rw [Nat.and_assoc, show (notFFFF &&& 0x10000 : Nat) = 0x10000 from by decide]

theorem clearZF_low (u : Nat) : (u ||| 1) &&& 0xFFFF ≠ 0 := by
  intro h
  have hb := congrArg (fun n => Nat.testBit n 0) h
  simp at hb

theorem clearZF_sign (u : Nat) : (u ||| 1) &&& 0x8000 = u &&& 0x8000 := by
  rw [or_and_mask, show (1 &&& 0x8000 : Nat) = 0 from by decide, Nat.or_zero]

theorem clearZF_carry (u : Nat) : (u ||| 1) &&& 0x10000 = u &&& 0x10000 := by
  rw [or_and_mask, show (1 &&& 0x10000 : Nat) = 0 from by decide, Nat.or_zero]

theorem setCF_low (u : Nat) : (u ||| 0x10000) &&& 0xFFFF = u &&& 0xFFFF := by
  rw [or_and_mask, show (0x10000 &&& 0xFFFF : Nat) = 0 from by decide, Nat.or_zero]

theorem setCF_sign (u : Nat) : (u ||| 0x10000) &&& 0x8000 = u &&& 0x8000 := by
  rw [or_and_mask, show (0x10000 &&& 0x8000 : Nat) = 0 from by decide, Nat.or_zero]

theorem setCF_carry (u : Nat) : (u ||| 0x10000) &&& 0x10000 ≠ 0 := by
  intro h
  have hb : ((u ||| 0x10000) &&& 0x10000).testBit 16 = Nat.testBit 0 16 := by rw [h]
  rw [Nat.testBit_and, Nat.testBit_or,
    show Nat.testBit 0x10000 16 = true from by decide] at hb
  simp at hb

theorem clearCF_low (u : Nat) : (u &&& 0xFFFF) &&& 0xFFFF = u &&& 0xFFFF := by
  rw [Nat.and_assoc, show (0xFFFF &&& 0xFFFF : Nat) = 0xFFFF from by decide]

theorem clearCF_sign (u : Nat) : (u &&& 0xFFFF) &&& 0x8000 = u &&& 0x8000 := by
  rw [Nat.and_assoc, show (0xFFFF &&& 0x8000 : Nat) = 0x8000 from by decide]

theorem clearCF_carry (u : Nat) : (u &&& 0xFFFF) &&& 0x10000 = 0 := by
  rw [Nat.and_assoc, show (0xFFFF &&& 0x10000 : Nat) = 0 from by decide, Nat.and_zero]

theorem restoreCF_low (u s : Nat) :
    ((u &&& 0xFFFF) ||| (s &&& 0x10000)) &&& 0xFFFF = u &&& 0xFFFF := by
  rw [or_and_mask, clearCF_low, Nat.and_assoc,
    show (0x10000 &&& 0xFFFF : Nat) = 0 from by decide, Nat.and_zero, Nat.or_zero]

theorem restoreCF_sign (u s : Nat) :
    ((u &&& 0xFFFF) ||| (s &&& 0x10000)) &&& 0x8000 = u &&& 0x8000 := by
  rw [or_and_mask, clearCF_sign, Nat.and_assoc,
    show (0x10000 &&& 0x8000 : Nat) = 0 from by decide, Nat.and_zero, Nat.or_zero]

theorem restoreCF_carry (u s : Nat) :
    ((u &&& 0xFFFF) ||| (s &&& 0x10000)) &&& 0x10000 = s &&& 0x10000 := by
  rw [or_and_mask, clearCF_carry, Nat.and_assoc,
    show (0x10000 &&& 0x10000 : Nat) = 0x10000 from by decide, Nat.zero_or]

/-- C1: for every register state, each flag setter makes its own predicate
true and each clearer makes it false. -/
theorem flag_set_clear_own (r : SBTRegs) :
    getZF (setZF r) = true ∧ getZF (clearZF r) = false ∧
    getOF (setOF r) = true ∧ getOF (clearOF r) = false ∧
    getCF (setCF r) = true ∧ getCF (clearCF r) = false := by
  refine ⟨?_, ?_, ?_, ?_, ?_, ?_⟩
  · simp [getZF, setZF, setZF_low]
  · simp [getZF, clearZF, clearZF_low]
  · show decide (Int.land (Int.xor ((0x8000 : Int) >>> 1) 0x8000) 0x8000 ≠ 0) = true
    decide
  · show decide (Int.land (Int.xor ((0 : Int) >>> 1) 0) 0x8000 ≠ 0) = false
    decide
  · simp [getCF, setCF, setCF_carry]
  · simp [getCF, clearCF, clearCF_carry]

/-- C2 (as stated, refuted): `setZF` does not leave the Sign predicate
unchanged. With `uresult = 0x8000` Sign is true before `setZF` and false
after it. -/
theorem setZF_changes_getSF :
    getSF (ofResults 0x8000 0) = true ∧ getSF (setZF (ofResults 0x8000 0)) = false := by
  constructor
  · simp only [getSF, ofResults]; decide
  · simp only [getSF, setZF, ofResults]; decide

/-- C2 (amended): every flag setter or clearer leaves each predicate it does
not target unchanged, with one exception: `setZF` clears the low sixteen bits
of the result, so after it Sign is false; Overflow and Carry are unchanged
by `setZF`. -/
theorem flag_frame (r : SBTRegs) :
    (getSF (setZF r) = false ∧ getOF (setZF r) = getOF r ∧ getCF (setZF r) = getCF r) ∧
    (getSF (clearZF r) = getSF r ∧ getOF (clearZF r) = getOF r ∧
      getCF (clearZF r) = getCF r) ∧
    (getZF (setOF r) = getZF r ∧ getSF (setOF r) = getSF r ∧ getCF (setOF r) = getCF r) ∧
    (getZF (clearOF r) = getZF r ∧ getSF (clearOF r) = getSF r ∧
      getCF (clearOF r) = getCF r) ∧
    (getZF (setCF r) = getZF r ∧ getSF (setCF r) = getSF r ∧ getOF (setCF r) = getOF r) ∧
    (getZF (clearCF r) = getZF r ∧ getSF (clearCF r) = getSF r ∧
      getOF (clearCF r) = getOF r) := by
  refine ⟨⟨?_, rfl, ?_⟩, ⟨?_, rfl, ?_⟩, ⟨rfl, rfl, rfl⟩, ⟨rfl, rfl, rfl⟩,
    ⟨?_, ?_, rfl⟩, ⟨?_, ?_, rfl⟩⟩
  · simp [getSF, setZF, setZF_sign]
  · simp only [getCF, setZF, setZF_carry]
  · simp only [getSF, clearZF, clearZF_sign]
  · simp only [getCF, clearZF, clearZF_carry]
  · simp only [getZF, setCF, setCF_low]
  · simp only [getSF, setCF, setCF_sign]
  · simp only [getZF, clearCF, clearCF_low]
  · simp only [getSF, clearCF, clearCF_sign]

/-- C3: `restoreCF` of a carry bit saved from `r1` gives `r2` the Carry of
`r1` and leaves Zero, Sign and Overflow of `r2` as they were; restoring the
carry a state saved itself changes none of the four predicates. -/
theorem saveCF_restoreCF (r1 r2 : SBTRegs) :
    (getCF (restoreCF r2 (saveCF r1)) = getCF r1 ∧
      getZF (restoreCF r2 (saveCF r1)) = getZF r2 ∧
      getSF (restoreCF r2 (saveCF r1)) = getSF r2 ∧
      getOF (restoreCF r2 (saveCF r1)) = getOF r2) ∧
    (getCF (restoreCF r1 (saveCF r1)) = getCF r1 ∧
      getZF (restoreCF r1 (saveCF r1)) = getZF r1 ∧
      getSF (restoreCF r1 (saveCF r1)) = getSF r1 ∧
      getOF (restoreCF r1 (saveCF r1)) = getOF r1) := by
  refine ⟨⟨?_, ?_, ?_, rfl⟩, ⟨?_, ?_, ?_, rfl⟩⟩
  · simp only [getCF, restoreCF, saveCF, restoreCF_carry]
  · simp only [getZF, restoreCF, saveCF, restoreCF_low]
  · simp only [getSF, restoreCF, saveCF, restoreCF_sign]
  · simp only [getCF, restoreCF, saveCF, restoreCF_carry]
  · simp only [getZF, restoreCF, saveCF, restoreCF_low]
  · simp only [getSF, restoreCF, saveCF, restoreCF_sign]

end SBTRegs

/-! ## Theorems: `OutputQueue` -/

namespace OutputQueue

/-! ### The loop of `run` -/

theorem runLoop_ret_le (c : Config) :
    ∀ (fuel : Nat) (q : OutputQueue) (out : List SinkCall) (res : RunResult),
      runLoop c fuel q out = Except.ok res → res.ret ≤ 100 := by
  intro fuel
  induction fuel with
  | zero => intro q out res h; simp [runLoop] at h
  | succ n ih =>
    intro q out res h
    rw [runLoop] at h
    split at h
    · injection h with h
      subst h
      exact Nat.min_le_right _ _
    · split at h
      · injection h with h
        subst h
        exact Nat.zero_le _
      · split at h
        · cases h
        · exact ih _ _ _ h

theorem runLoop_zero_drained (c : Config) :
    ∀ (fuel : Nat) (q : OutputQueue) (out : List SinkCall) (res : RunResult),
      runLoop c fuel q out = Except.ok res → res.ret = 0 →
      res.q.items = [] ∧ res.q.delay_remaining = 0 := by
  intro fuel
  induction fuel with
  | zero => intro q out res h; simp [runLoop] at h
  | succ n ih =>
    intro q out res h h0
    rw [runLoop] at h
    split at h
    · rename_i hpos
      injection h with h
      subst h
      simp only [max_delay_per_step] at h0
      omega
    · rename_i hpos
      split at h
      · rename_i hnil
        injection h with h
        subst h
        refine ⟨hnil, ?_⟩
        show q.delay_remaining = 0
        omega
      · split at h
        · cases h
        · exact ih _ _ _ h h0

/-! ### Delay splitting -/

theorem delayReturns_zero : delayReturns 0 = [] := by
  simp [delayReturns]

theorem delayReturns_small (d : Nat) (h0 : 0 < d) (h : d < 100) : delayReturns d = [d] := by
  have h1 : d / 100 = 0 := by omega
  have h2 : d % 100 = d := by omega
  have h3 : ¬ d = 0 := by omega
  simp [delayReturns, h1, h2, h3]

theorem delayReturns_large (d : Nat) (h : 100 ≤ d) :
    delayReturns d = 100 :: delayReturns (d - 100) := by
  have h1 : d / 100 = (d - 100) / 100 + 1 := by omega
  have h2 : d % 100 = (d - 100) % 100 := by omega
  simp [delayReturns, h1, h2, List.replicate_succ]

theorem delayReturns_sum (d : Nat) : (delayReturns d).sum = d := by
  unfold delayReturns
  by_cases h : d % 100 = 0
  · simp [h]; omega
  · simp [h]; omega

/-- Successive calls of `run` on a drained queue that still owes a delay. -/
theorem runTimes_drained (c : Config) :
    ∀ (n : Nat) (q : OutputQueue), q.items = [] →
      runTimes c n q = Except.ok
        ((delayReturns q.delay_remaining).take n ++
            List.replicate (n - (delayReturns q.delay_remaining).length) 0, [],
          { q with delay_remaining := q.delay_remaining - 100 * n }) := by
  intro n
  induction n with
  | zero => intro q _; simp [runTimes]
  | succ n ih =>
    intro q hq
    by_cases hpos : 0 < q.delay_remaining
    · have hrun : run c q = Except.ok
          { ret := min q.delay_remaining 100, calls := [],
            q := { q with delay_remaining := q.delay_remaining - min q.delay_remaining 100 } } := by
        simp [run, runLoop, hpos, max_delay_per_step]
      rw [runTimes, hrun]
      simp only []
      rw [ih { q with delay_remaining := q.delay_remaining - min q.delay_remaining 100 } hq]
      by_cases hbig : 100 ≤ q.delay_remaining
      · have hmin : min q.delay_remaining 100 = 100 := by omega
        have e1 : q.delay_remaining - 100 - 100 * n = q.delay_remaining - 100 * (n + 1) := by
          omega
        simp [hmin, delayReturns_large _ hbig, e1]
      · have hmin : min q.delay_remaining 100 = q.delay_remaining := by omega
        have e1 : q.delay_remaining - 100 * (n + 1) = 0 := by omega
        simp [hmin, delayReturns_small _ hpos (by omega), delayReturns_zero, e1]
    · have hz : q.delay_remaining = 0 := by omega
      have hrun : run c q = Except.ok { ret := 0, calls := [], q := q } := by
        simp [run, runLoop, hz, hq]
      rw [runTimes, hrun]
      simp only []
      rw [ih q hq]
      simp [hz, delayReturns_zero, List.replicate_succ]

/-- C4: delay splitting. After `pushDelay(d)` on a cleared queue, the first
`n` calls of `run` return the first `n` entries of: `d / 100` times 100, then
`d % 100` when that is not zero, then zeros for ever; no sink is called; and
the returns that are not zero add up to `d`. -/
theorem delay_splitting (c : Config) (q : OutputQueue) (d : Nat)
    (hcap : 0 < c.ITEM_CAPACITY) (hd : d < 2 ^ 32) :
    (∀ n, ∃ q2, runTimes c n (pushDelay c (clear q) d) = Except.ok
        ((delayReturns d).take n ++ List.replicate (n - (delayReturns d).length) 0, [], q2)) ∧
    (delayReturns d).sum = d := by
  refine ⟨?_, delayReturns_sum d⟩
  have h2 : ¬ c.ITEM_CAPACITY ≤ 0 := by omega
  have hpush : pushDelay c (clear q) d =
      { items := [OutputItem.OUT_DELAY d], frames := [], rgb_pixels := q.rgb_pixels,
        pcm_samples := q.pcm_samples, delay_remaining := 0 } := by
    simp [pushDelay, clear, skipDelay, skipDelayLoop, full, h2]
  have hmod : d % 4294967296 = d := Nat.mod_eq_of_lt hd
  have hrun : run c (pushDelay c (clear q) d) =
      run c { items := [], frames := [], rgb_pixels := q.rgb_pixels,
              pcm_samples := q.pcm_samples, delay_remaining := d } := by
    rw [hpush]
    by_cases hpos : 0 < d
    · simp [run, runLoop, dispatch, hmod, hpos]
    · have hz : d = 0 := by omega
      subst hz
      simp [run, runLoop, dispatch]
  intro n
  cases n with
  | zero => exact ⟨_, by simp [runTimes]; rfl⟩
  | succ n =>
    have hd2 := runTimes_drained c (n + 1)
      { items := [], frames := [], rgb_pixels := q.rgb_pixels,
        pcm_samples := q.pcm_samples, delay_remaining := d } rfl
    rw [runTimes, ← hrun] at hd2
    rw [runTimes]
    exact ⟨_, hd2⟩

/-- C4, at `d = 250`: four calls of `run` return 100, 100, 50 and then 0. -/
theorem delay_splitting_witness :
    ((0 : Nat) < demoConfig.ITEM_CAPACITY ∧ (250 : Nat) < 2 ^ 32) ∧
    (∃ q2, runTimes demoConfig 4 (pushDelay demoConfig (clear emptyQueue) 250) =
      Except.ok ([100, 100, 50, 0], [], q2)) ∧
    (delayReturns 250).sum = 250 :=
  ⟨⟨by decide, by decide⟩,
    (delay_splitting demoConfig emptyQueue 250 (by decide) (by decide)).1 4,
    (delay_splitting demoConfig emptyQueue 250 (by decide) (by decide)).2⟩

/-! ### CGA decoding -/

/-- A fold of buffer updates, watched at one index `i`: when every step
either stores `val` at `i` or leaves `i` alone, so does the whole fold. -/
theorem foldl_keep {ι : Type} (f : (Nat → Nat) → ι → (Nat → Nat)) (i val : Nat) :
    ∀ (l : List ι), (∀ j ∈ l, ∀ px, f px j i = val ∨ f px j i = px i) →
      ∀ px, l.foldl f px i = val ∨ l.foldl f px i = px i := by
  intro l
  induction l with
  | nil => intro _ px; exact Or.inr rfl
  | cons a t ih =>
    intro hstep px
    rw [List.foldl_cons]
    have ht := ih (fun j hj => hstep j (List.mem_cons_of_mem a hj)) (f px a)
    rcases ht with ht | ht
    · exact Or.inl ht
    · rcases hstep a (List.mem_cons_self a t) px with ha | ha
      · exact Or.inl (ht.trans ha)
      · exact Or.inr (ht.trans ha)

/-- If moreover some step always stores `val` at `i`, the fold leaves `val`
there. -/
theorem foldl_hit {ι : Type} (f : (Nat → Nat) → ι → (Nat → Nat)) (i val : Nat) :
    ∀ (l : List ι), (∀ j ∈ l, ∀ px, f px j i = val ∨ f px j i = px i) →
      (∃ j ∈ l, ∀ px, f px j i = val) → ∀ px, l.foldl f px i = val := by
  intro l
  induction l with
  | nil => intro _ hhit; obtain ⟨j, hj, _⟩ := hhit; cases hj
  | cons a t ih =>
    intro hstep hhit px
    rw [List.foldl_cons]
    have hstep2 : ∀ j ∈ t, ∀ px, f px j i = val ∨ f px j i = px i :=
      fun j hj => hstep j (List.mem_cons_of_mem a hj)
    obtain ⟨j, hj, hval⟩ := hhit
    rcases List.mem_cons.mp hj with hja | hjt
    · subst hja
      rcases foldl_keep f i val t hstep2 (f px j) with ht | ht
      · exact ht
      · exact ht.trans (hval px)
    · exact ih hstep2 ⟨j, hjt, hval⟩ (f px a)

theorem zoomPixel_keep (c : Config) (rgb_line rgb i val : Nat)
    (h : ∀ zy < c.ZOOM, ∀ zx < c.ZOOM, i = rgb_line + (zx + zy * c.SCREEN_WIDTH) → rgb = val)
    (px : Nat → Nat) :
    zoomPixel c px rgb_line rgb i = val ∨ zoomPixel c px rgb_line rgb i = px i := by
  unfold zoomPixel
  apply foldl_keep
  intro zy hzy px
  apply foldl_keep
  intro zx hzx px
  simp only [storeAt]
  by_cases hi : i = rgb_line + (zx + zy * c.SCREEN_WIDTH)
  · left
    rw [if_pos hi]
    exact h zy (List.mem_range.mp hzy) zx (List.mem_range.mp hzx) hi
  · right
    rw [if_neg hi]

theorem zoomPixel_hit (c : Config) (rgb_line rgb i val : Nat)
    (h : ∀ zy < c.ZOOM, ∀ zx < c.ZOOM, i = rgb_line + (zx + zy * c.SCREEN_WIDTH) → rgb = val)
    (hhit : ∃ zy < c.ZOOM, ∃ zx < c.ZOOM, i = rgb_line + (zx + zy * c.SCREEN_WIDTH))
    (px : Nat → Nat) :
    zoomPixel c px rgb_line rgb i = val := by
  obtain ⟨zy, hzy, zx, hzx, hi⟩ := hhit
  have hrgb : rgb = val := h zy hzy zx hzx hi
  subst hrgb
  unfold zoomPixel
  apply foldl_hit
  · intro zy hzy px
    apply foldl_keep
    intro zx hzx px
    simp only [storeAt]
    by_cases hi : i = rgb_line + (zx + zy * c.SCREEN_WIDTH)
    · left; rw [if_pos hi]
    · right; rw [if_neg hi]
  · refine ⟨zy, List.mem_range.mpr hzy, ?_⟩
    intro px
    apply foldl_hit
    · intro zx hzx px
      simp only [storeAt]
      by_cases hi : i = rgb_line + (zx + zy * c.SCREEN_WIDTH)
      · left; rw [if_pos hi]
      · right; rw [if_neg hi]
    · refine ⟨zx, List.mem_range.mpr hzx, ?_⟩
      intro px
      simp only [storeAt]
      rw [if_pos hi]

/-- The `x` loop with the moving pointer replaced by its closed form. -/
theorem decodeLine_fold_aux (c : Config) (frame : CGAFramebuffer) (plane y base : Nat) :
    ∀ (n s : Nat) (px : Nat → Nat),
      (List.range' s n).foldl
        (fun (st : (Nat → Nat) × Nat) x =>
          (zoomPixel c st.1 st.2 (pixelColor c frame plane y x), st.2 + c.ZOOM))
        (px, base + s * c.ZOOM) =
      ((List.range' s n).foldl
        (fun px x => zoomPixel c px (base + x * c.ZOOM) (pixelColor c frame plane y x)) px,
        base + (s + n) * c.ZOOM) := by
  intro n
  induction n with
  | zero => intro s px; simp
  | succ n ih =>
    intro s px
    rw [List.range'_succ, List.foldl_cons, List.foldl_cons]
    have e : base + s * c.ZOOM + c.ZOOM = base + (s + 1) * c.ZOOM := by
      rw [Nat.add_mul, Nat.one_mul, Nat.add_assoc]
    simp only [e]
    rw [ih (s + 1)]
    have e2 : s + 1 + n = s + (n + 1) := by omega
    rw [e2]

theorem decodeLine_fold (c : Config) (frame : CGAFramebuffer) (plane y : Nat)
    (px : Nat → Nat) :
    decodeLine c frame plane y px =
      (List.range c.WIDTH).foldl
        (fun px x =>
          zoomPixel c px ((y * 2 + plane) * c.SCREEN_WIDTH * c.ZOOM + x * c.ZOOM)
            (pixelColor c frame plane y x)) px := by
  unfold decodeLine
  have h := decodeLine_fold_aux c frame plane y
    ((y * 2 + plane) * c.SCREEN_WIDTH * c.ZOOM) c.WIDTH 0 px
  rw [Nat.zero_mul, Nat.add_zero] at h
  rw [List.range_eq_range', h]


theorem decodeLine_keep (c : Config) (frame : CGAFramebuffer) (plane y i val : Nat)
    (h : ∀ x < c.WIDTH, ∀ zy < c.ZOOM, ∀ zx < c.ZOOM,
      i = (y * 2 + plane) * c.SCREEN_WIDTH * c.ZOOM + x * c.ZOOM + (zx + zy * c.SCREEN_WIDTH) →
      pixelColor c frame plane y x = val)
    (px : Nat → Nat) :
    decodeLine c frame plane y px i = val ∨ decodeLine c frame plane y px i = px i := by
  rw [decodeLine_fold]
  revert px
  apply foldl_keep
  intro x hx px
  exact zoomPixel_keep c _ _ i val (h x (List.mem_range.mp hx)) px

theorem decodeLine_hit (c : Config) (frame : CGAFramebuffer) (plane y i val : Nat)
    (h : ∀ x < c.WIDTH, ∀ zy < c.ZOOM, ∀ zx < c.ZOOM,
      i = (y * 2 + plane) * c.SCREEN_WIDTH * c.ZOOM + x * c.ZOOM + (zx + zy * c.SCREEN_WIDTH) →
      pixelColor c frame plane y x = val)
    (hhit : ∃ x < c.WIDTH, ∃ zy < c.ZOOM, ∃ zx < c.ZOOM,
      i = (y * 2 + plane) * c.SCREEN_WIDTH * c.ZOOM + x * c.ZOOM + (zx + zy * c.SCREEN_WIDTH))
    (px : Nat → Nat) :
    decodeLine c frame plane y px i = val := by
  rw [decodeLine_fold]
  revert px
  apply foldl_hit
  · intro x hx px
    exact zoomPixel_keep c _ _ i val (h x (List.mem_range.mp hx)) px
  · obtain ⟨x, hx, hrest⟩ := hhit
    exact ⟨x, List.mem_range.mpr hx, fun px => zoomPixel_hit c _ _ i val (h x hx) hrest px⟩

theorem decodePlane_keep (c : Config) (frame : CGAFramebuffer) (plane i val : Nat)
    (h : ∀ y < c.HEIGHT / 2, ∀ x < c.WIDTH, ∀ zy < c.ZOOM, ∀ zx < c.ZOOM,
      i = (y * 2 + plane) * c.SCREEN_WIDTH * c.ZOOM + x * c.ZOOM + (zx + zy * c.SCREEN_WIDTH) →
      pixelColor c frame plane y x = val)
    (px : Nat → Nat) :
    decodePlane c frame plane px i = val ∨ decodePlane c frame plane px i = px i := by
  unfold decodePlane
  revert px
  apply foldl_keep
  intro y hy px
  exact decodeLine_keep c frame plane y i val (h y (List.mem_range.mp hy)) px

theorem decodePlane_hit (c : Config) (frame : CGAFramebuffer) (plane i val : Nat)
    (h : ∀ y < c.HEIGHT / 2, ∀ x < c.WIDTH, ∀ zy < c.ZOOM, ∀ zx < c.ZOOM,
      i = (y * 2 + plane) * c.SCREEN_WIDTH * c.ZOOM + x * c.ZOOM + (zx + zy * c.SCREEN_WIDTH) →
      pixelColor c frame plane y x = val)
    (hhit : ∃ y < c.HEIGHT / 2, ∃ x < c.WIDTH, ∃ zy < c.ZOOM, ∃ zx < c.ZOOM,
      i = (y * 2 + plane) * c.SCREEN_WIDTH * c.ZOOM + x * c.ZOOM + (zx + zy * c.SCREEN_WIDTH))
    (px : Nat → Nat) :
    decodePlane c frame plane px i = val := by
  unfold decodePlane
  revert px
  apply foldl_hit
  · intro y hy px
    exact decodeLine_keep c frame plane y i val (h y (List.mem_range.mp hy)) px
  · obtain ⟨y, hy, hrest⟩ := hhit
    exact ⟨y, List.mem_range.mpr hy, fun px => decodeLine_hit c frame plane y i val (h y hy) hrest px⟩

/-- The pixel of `rgb_pixels` at index `i` after the decoding loops, when
every store that reaches `i` writes `val` and at least one store reaches it. -/
theorem decodeCGA_hit (c : Config) (frame : CGAFramebuffer) (i val : Nat)
    (h : ∀ plane < 2, ∀ y < c.HEIGHT / 2, ∀ x < c.WIDTH, ∀ zy < c.ZOOM, ∀ zx < c.ZOOM,
      i = (y * 2 + plane) * c.SCREEN_WIDTH * c.ZOOM + x * c.ZOOM + (zx + zy * c.SCREEN_WIDTH) →
      pixelColor c frame plane y x = val)
    (hhit : ∃ plane < 2, ∃ y < c.HEIGHT / 2, ∃ x < c.WIDTH, ∃ zy < c.ZOOM, ∃ zx < c.ZOOM,
      i = (y * 2 + plane) * c.SCREEN_WIDTH * c.ZOOM + x * c.ZOOM + (zx + zy * c.SCREEN_WIDTH))
    (px : Nat → Nat) :
    decodeCGA c frame px i = val := by
  unfold decodeCGA
  revert px
  apply foldl_hit
  · intro plane hp px
    exact decodePlane_keep c frame plane i val (h plane (List.mem_range.mp hp)) px
  · obtain ⟨plane, hp, hrest⟩ := hhit
    exact ⟨plane, List.mem_range.mpr hp,
      fun px => decodePlane_hit c frame plane i val (h plane hp) hrest px⟩

/-- A pixel index that no store of the decoding loops reaches keeps its value. -/
theorem decodeCGA_miss (c : Config) (frame : CGAFramebuffer) (i : Nat)
    (h : ∀ plane < 2, ∀ y < c.HEIGHT / 2, ∀ x < c.WIDTH, ∀ zy < c.ZOOM, ∀ zx < c.ZOOM,
      i ≠ (y * 2 + plane) * c.SCREEN_WIDTH * c.ZOOM + x * c.ZOOM + (zx + zy * c.SCREEN_WIDTH))
    (px : Nat → Nat) :
    decodeCGA c frame px i = px i := by
  have hk := foldl_keep (fun px plane => decodePlane c frame plane px) i (px i) (List.range 2)
    (fun plane hp px2 => decodePlane_keep c frame plane i (px i)
      (fun y hy x hx zy hzy zx hzx hi =>
        absurd hi (h plane (List.mem_range.mp hp) y hy x hx zy hzy zx hzx)) px2) px
  exact hk.elim id id

/-- Quotient and remainder by `n` are unique. -/
theorem divmod_unique (a b q r n : Nat) (hb : b < n) (hr : r < n)
    (h : a * n + b = q * n + r) : a = q ∧ b = r := by
  have hn : 0 < n := by omega
  have h1 : (a * n + b) % n = b := by
    rw [Nat.add_comm, Nat.add_mul_mod_self_right, Nat.mod_eq_of_lt hb]
  have h2 : (q * n + r) % n = r := by
    rw [Nat.add_comm, Nat.add_mul_mod_self_right, Nat.mod_eq_of_lt hr]
  have h3 : (a * n + b) / n = a := by
    rw [Nat.add_comm, Nat.add_mul_div_right _ _ hn, Nat.div_eq_of_lt hb, Nat.zero_add]
  have h4 : (q * n + r) / n = q := by
    rw [Nat.add_comm, Nat.add_mul_div_right _ _ hn, Nat.div_eq_of_lt hr, Nat.zero_add]
  constructor
  · rw [← h3, ← h4, h]
  · rw [← h1, ← h2, h]

/-- The index arithmetic of `dequeueCGAFrame`, regrouped by display row and column. -/
theorem pixel_index_eq (sw zoom row x zx zy : Nat) :
    row * sw * zoom + x * zoom + (zx + zy * sw) = (row * zoom + zy) * sw + (x * zoom + zx) := by
  ring


/-- The colour index is the two-bit field at bit position `2 * (3 - x % 4)`. -/
theorem pixelColor_eq (c : Config) (frame : CGAFramebuffer) (plane y x : Nat) :
    pixelColor c frame plane y x =
      c.cga_palette
        ((frame.bytes (0x2000 * plane + (x + c.WIDTH * y) / 4) / 2 ^ (2 * (3 - x % 4))) % 4) := by
  unfold pixelColor
  simp only []
  have h3 : ∀ n : Nat, 3 &&& n = n % 4 := by
    intro n
    rw [Nat.and_comm]
    exact Nat.and_pow_two_sub_one_eq_mod n 2
  rw [h3, Nat.shiftRight_eq_div_pow, Nat.mul_comm (3 - x % 4) 2]

theorem decodeCGA_pixel (c : Config) (frame : CGAFramebuffer) (px : Nat → Nat)
    (hw : c.WIDTH * c.ZOOM ≤ c.SCREEN_WIDTH) (hh : c.HEIGHT % 2 = 0)
    (X Y : Nat) (hX : X < c.WIDTH * c.ZOOM) (hY : Y < c.HEIGHT * c.ZOOM) :
    decodeCGA c frame px (Y * c.SCREEN_WIDTH + X) =
      pixelColor c frame ((Y / c.ZOOM) % 2) ((Y / c.ZOOM) / 2) (X / c.ZOOM) := by
  have hz : 0 < c.ZOOM := by
    rcases Nat.eq_zero_or_pos c.ZOOM with h0 | h0
    · rw [h0, Nat.mul_zero] at hX; omega
    · exact h0
  have hsx : X / c.ZOOM < c.WIDTH := (Nat.div_lt_iff_lt_mul hz).mpr hX
  have hsy : Y / c.ZOOM < c.HEIGHT := (Nat.div_lt_iff_lt_mul hz).mpr hY
  have hXsw : X < c.SCREEN_WIDTH := Nat.lt_of_lt_of_le hX hw
  have hXdm : X / c.ZOOM * c.ZOOM + X % c.ZOOM = X := Nat.div_add_mod' X c.ZOOM
  have hYdm : Y / c.ZOOM * c.ZOOM + Y % c.ZOOM = Y := Nat.div_add_mod' Y c.ZOOM
  apply decodeCGA_hit
  · intro plane hp y hy x hx zy hzy zx hzx hi
    rw [pixel_index_eq] at hi
    have hxz : x * c.ZOOM + zx < c.SCREEN_WIDTH := by
      have h1 : (x + 1) * c.ZOOM ≤ c.WIDTH * c.ZOOM := Nat.mul_le_mul_right _ hx
      rw [Nat.add_mul, Nat.one_mul] at h1
      omega
    obtain ⟨hrow, hcol⟩ := divmod_unique _ _ _ _ c.SCREEN_WIDTH hXsw hxz hi
    have hx2 : X / c.ZOOM = x := by
      have := divmod_unique (X / c.ZOOM) (X % c.ZOOM) x zx c.ZOOM (Nat.mod_lt _ hz) hzx
        (by rw [hXdm]; exact hcol)
      exact this.1
    have hy2 : Y / c.ZOOM = y * 2 + plane := by
      have := divmod_unique (Y / c.ZOOM) (Y % c.ZOOM) (y * 2 + plane) zy c.ZOOM
        (Nat.mod_lt _ hz) hzy (by rw [hYdm]; exact hrow)
      exact this.1
    have hp2 : (Y / c.ZOOM) % 2 = plane := by omega
    have hy3 : (Y / c.ZOOM) / 2 = y := by omega
    rw [hx2, hp2, hy3]
  · refine ⟨(Y / c.ZOOM) % 2, Nat.mod_lt _ (by decide), (Y / c.ZOOM) / 2, by omega,
      X / c.ZOOM, hsx, Y % c.ZOOM, Nat.mod_lt _ hz, X % c.ZOOM, Nat.mod_lt _ hz, ?_⟩
    rw [pixel_index_eq]
    have e : (Y / c.ZOOM) / 2 * 2 + (Y / c.ZOOM) % 2 = Y / c.ZOOM := Nat.div_add_mod' _ 2
    rw [e, hXdm, hYdm]

/-- C7: CGA decoding. When the source frame fits the screen line
(`WIDTH * ZOOM ≤ SCREEN_WIDTH`) and has an even number of scanlines,
`dequeueCGAFrame` on a queue whose front frame is `F` succeeds, pops `F`, and
leaves at every display pixel `(X, Y)` with `X < WIDTH * ZOOM` and
`Y < HEIGHT * ZOOM` the palette entry of the two-bit field, at bit position
`2 * (3 - sx % 4)`, of byte `0x2000 * (sy % 2) + (sx + WIDTH * (sy / 2)) / 4`
of `F`, where `sx = X / ZOOM` and `sy = Y / ZOOM`. -/
theorem dequeueCGAFrame_pixels (c : Config) (q : OutputQueue) (F : CGAFramebuffer)
    (rest : List CGAFramebuffer) (hq : q.frames = F :: rest)
    (hw : c.WIDTH * c.ZOOM ≤ c.SCREEN_WIDTH) (hh : c.HEIGHT % 2 = 0)
    (X Y : Nat) (hX : X < c.WIDTH * c.ZOOM) (hY : Y < c.HEIGHT * c.ZOOM) :
    ∃ q2, dequeueCGAFrame c q = some q2 ∧ q2.frames = rest ∧
      q2.rgb_pixels (Y * c.SCREEN_WIDTH + X) =
        c.cga_palette
          ((F.bytes (0x2000 * ((Y / c.ZOOM) % 2) +
              (X / c.ZOOM + c.WIDTH * ((Y / c.ZOOM) / 2)) / 4) /
            2 ^ (2 * (3 - (X / c.ZOOM) % 4))) % 4) := by
  refine ⟨{ q with rgb_pixels := decodeCGA c F q.rgb_pixels, frames := rest }, ?_, rfl, ?_⟩
  · simp [dequeueCGAFrame, hq]
  · show decodeCGA c F q.rgb_pixels (Y * c.SCREEN_WIDTH + X) = _
    rw [decodeCGA_pixel c F q.rgb_pixels hw hh X Y hX hY, pixelColor_eq]

/-- C7, on a 4 by 2 frame of bytes `0x1B` zoomed by 2: display pixel (5, 3)
comes from source pixel (2, 1), whose two-bit field is 2. -/
theorem dequeueCGAFrame_pixels_witness :
    (demoConfig.WIDTH * demoConfig.ZOOM ≤ demoConfig.SCREEN_WIDTH ∧
      demoConfig.HEIGHT % 2 = 0 ∧ 5 < demoConfig.WIDTH * demoConfig.ZOOM ∧
      3 < demoConfig.HEIGHT * demoConfig.ZOOM) ∧
    ∃ q2, dequeueCGAFrame demoConfig { emptyQueue with frames := [demoFrame] } = some q2 ∧
      q2.frames = [] ∧ q2.rgb_pixels (3 * demoConfig.SCREEN_WIDTH + 5) = 2 :=
  ⟨⟨by decide, by decide, by decide, by decide⟩,
    dequeueCGAFrame_pixels demoConfig { emptyQueue with frames := [demoFrame] } demoFrame []
      rfl (by decide) (by decide) 5 3 (by decide) (by decide)⟩

/-! ### A frame followed by a delay -/

/-- C6: on a cleared queue with room for one frame and two items, after
`pushFrameCGA(f)` a single `run` calls the rendering sink exactly once, with
the CGA decoding of `f`, and returns 0; when `pushDelay(d)` follows the
frame, the single `run` makes the same one call and returns `min d 100`. -/
theorem run_after_pushFrameCGA (c : Config) (q : OutputQueue) (f : CGAFramebuffer) (d : Nat)
    (hf : 0 < c.FRAME_CAPACITY) (hi : 1 < c.ITEM_CAPACITY) (hd : d < 2 ^ 32) :
    (pushFrameCGA c (clear q) f).isFatal = false ∧
    run c (pushFrameCGA c (clear q) f).state = Except.ok
      { ret := 0,
        calls := [SinkCall.onRenderFrame
          ((List.range (c.SCREEN_WIDTH * c.SCREEN_HEIGHT)).map (decodeCGA c f q.rgb_pixels))],
        q := { items := [], frames := [], rgb_pixels := decodeCGA c f q.rgb_pixels,
               pcm_samples := q.pcm_samples, delay_remaining := 0 } } ∧
    run c (pushDelay c (pushFrameCGA c (clear q) f).state d) = Except.ok
      { ret := min d 100,
        calls := [SinkCall.onRenderFrame
          ((List.range (c.SCREEN_WIDTH * c.SCREEN_HEIGHT)).map (decodeCGA c f q.rgb_pixels))],
        q := { items := [], frames := [], rgb_pixels := decodeCGA c f q.rgb_pixels,
               pcm_samples := q.pcm_samples, delay_remaining := d - min d 100 } } := by
  have hpush : pushFrameCGA c (clear q) f = PushResult.ok
      { items := [OutputItem.OUT_CGA_FRAME], frames := [f], rgb_pixels := q.rgb_pixels,
        pcm_samples := q.pcm_samples, delay_remaining := 0 } := by
    have h1 : ¬ c.FRAME_CAPACITY ≤ 0 := by omega
    have h2 : ¬ c.ITEM_CAPACITY ≤ 0 := by omega
    simp [pushFrameCGA, clear, skipDelay, skipDelayLoop, full, h1, h2]
  rw [hpush]
  have h3 : ¬ c.ITEM_CAPACITY ≤ 1 := by omega
  refine ⟨rfl, ?_, ?_⟩
  · simp [PushResult.state, run, runLoop, dispatch, dequeueCGAFrame, renderFrame]
  · by_cases hd0 : d = 0
    · subst hd0
      simp [PushResult.state, pushDelay, full, h3, run, runLoop, dispatch, dequeueCGAFrame,
        renderFrame]
    · have hpos : 0 < d := Nat.pos_of_ne_zero hd0
      have hmod : d % 4294967296 = d := Nat.mod_eq_of_lt hd
      simp [PushResult.state, pushDelay, full, h3, run, runLoop, dispatch, dequeueCGAFrame,
        renderFrame, hmod, hpos, max_delay_per_step]

/-- C6, on the small configuration with a delay of 250 ms: one frame call,
100 returned, 150 ms still owed. -/
theorem run_after_pushFrameCGA_witness :
    ((0 : Nat) < demoConfig.FRAME_CAPACITY ∧ 1 < demoConfig.ITEM_CAPACITY ∧
      (250 : Nat) < 2 ^ 32) ∧
    run demoConfig
        (pushDelay demoConfig (pushFrameCGA demoConfig (clear emptyQueue) demoFrame).state 250) =
      Except.ok
        { ret := 100,
          calls := [SinkCall.onRenderFrame
            ((List.range (demoConfig.SCREEN_WIDTH * demoConfig.SCREEN_HEIGHT)).map
              (decodeCGA demoConfig demoFrame emptyQueue.rgb_pixels))],
          q := { items := [], frames := [],
                 rgb_pixels := decodeCGA demoConfig demoFrame emptyQueue.rgb_pixels,
                 pcm_samples := emptyQueue.pcm_samples, delay_remaining := 150 } } :=
  ⟨⟨by decide, by decide, by decide⟩,
    (run_after_pushFrameCGA demoConfig emptyQueue demoFrame 250
      (by decide) (by decide) (by decide)).2.2⟩

/-! ### An owed delay -/

/-- C8: when a delay `r > 0` is owed, `run` returns `min r 100`, calls no
sink, takes exactly the returned value off the owed delay and changes
nothing else (items, frame ring and pixel buffer are as before); and no
call of `run`, on any queue, returns more than 100. -/
theorem run_owed_delay (c : Config) (q : OutputQueue) (h : 0 < q.delay_remaining) :
    run c q = Except.ok
      { ret := min q.delay_remaining 100, calls := [],
        q := { q with delay_remaining := q.delay_remaining - min q.delay_remaining 100 } } ∧
    (∀ (q2 : OutputQueue) (res : RunResult), run c q2 = Except.ok res → res.ret ≤ 100) := by
  constructor
  · simp [run, runLoop, h, max_delay_per_step]
  · intro q2 res hres
    exact runLoop_ret_le c _ _ _ _ hres

/-- C8, with 250 ms owed: `run` returns 100 and leaves 150 ms owed. -/
theorem run_owed_delay_witness :
    (0 : Nat) < ({ emptyQueue with delay_remaining := 250 } : OutputQueue).delay_remaining ∧
    run demoConfig { emptyQueue with delay_remaining := 250 } =
      Except.ok { ret := 100, calls := [], q := { emptyQueue with delay_remaining := 150 } } :=
  ⟨by decide,
    (run_owed_delay demoConfig { emptyQueue with delay_remaining := 250 } (by decide)).1⟩

/-! ### Draining -/

/-- C9: if `run` returns 0, the item queue is empty and no delay is owed
afterwards. -/
theorem run_zero_drained (c : Config) (q : OutputQueue) (res : RunResult)
    (h : run c q = Except.ok res) (h0 : res.ret = 0) :
    res.q.items = [] ∧ res.q.delay_remaining = 0 :=
  runLoop_zero_drained c _ _ _ _ h h0

/-- C9, on a queue that holds one delay of 0 ms: `run` consumes it and
returns 0 with the queue drained. -/
theorem run_zero_drained_witness :
    run demoConfig { emptyQueue with items := [OutputItem.OUT_DELAY 0] } =
      Except.ok { ret := 0, calls := [], q := emptyQueue } ∧
    (emptyQueue.items = [] ∧ emptyQueue.delay_remaining = 0) :=
  ⟨rfl, run_zero_drained demoConfig { emptyQueue with items := [OutputItem.OUT_DELAY 0] }
    { ret := 0, calls := [], q := emptyQueue } rfl rfl⟩

/-! ### Pushes -/

/-- C10: `pushFrameCGA` trips its assertion exactly when the frame ring or
the item queue is full, `pushFrameRGB` and `pushSpeakerTimestamp` exactly
when the item queue is full; a push that trips leaves the whole state as it
was; a push that does not appends one item of its kind at the back of the
item queue, and `pushFrameCGA` appends its frame at the back of the ring
while the other two leave the ring alone. -/
theorem push_outcomes (c : Config) (q : OutputQueue) (f : CGAFramebuffer)
    (fb : Nat → Nat) (ts : Nat) :
    ((pushFrameCGA c q f).isFatal =
        (full c.FRAME_CAPACITY q.frames || full c.ITEM_CAPACITY q.items) ∧
      (if (pushFrameCGA c q f).isFatal then (pushFrameCGA c q f).state = q
       else (pushFrameCGA c q f).state.items = q.items ++ [OutputItem.OUT_CGA_FRAME] ∧
            (pushFrameCGA c q f).state.frames = q.frames ++ [f])) ∧
    ((pushFrameRGB c q fb).isFatal = full c.ITEM_CAPACITY q.items ∧
      (if (pushFrameRGB c q fb).isFatal then (pushFrameRGB c q fb).state = q
       else (pushFrameRGB c q fb).state.items = q.items ++ [OutputItem.OUT_RGB_FRAME] ∧
            (pushFrameRGB c q fb).state.frames = q.frames)) ∧
    ((pushSpeakerTimestamp c q ts).isFatal = full c.ITEM_CAPACITY q.items ∧
      (if (pushSpeakerTimestamp c q ts).isFatal then (pushSpeakerTimestamp c q ts).state = q
       else (pushSpeakerTimestamp c q ts).state.items =
              q.items ++ [OutputItem.OUT_SPEAKER_TIMESTAMP ts] ∧
            (pushSpeakerTimestamp c q ts).state.frames = q.frames)) := by
  refine ⟨?_, ?_, ?_⟩
  · unfold pushFrameCGA
    cases h : (full c.FRAME_CAPACITY q.frames || full c.ITEM_CAPACITY q.items) <;>
      simp [PushResult.isFatal, PushResult.state]
  · unfold pushFrameRGB
    cases h : full c.ITEM_CAPACITY q.items <;>
      simp [PushResult.isFatal, PushResult.state]
  · unfold pushSpeakerTimestamp
    cases h : full c.ITEM_CAPACITY q.items <;>
      simp [PushResult.isFatal, PushResult.state]

/-! ### FIFO order -/

/-- With fuel for the samples still missing, the loop of `renderSoundEffect`
ends, and the items it removed are speaker timestamps from the front. -/
theorem soundLoop_total (c : Config) :
    ∀ (fuel : Nat) (s : SoundState), c.AUDIO_BUFFER_SAMPLES ≤ s.sample_count + fuel →
      ∃ s2 pre, soundLoop c fuel s = Except.ok s2 ∧ s.items = pre ++ s2.items ∧
        ∀ it ∈ pre, ∃ ts, it = OutputItem.OUT_SPEAKER_TIMESTAMP ts := by
  intro fuel
  induction fuel with
  | zero =>
    intro s hs
    have hc : soundCond c s = false := by
      simp only [soundCond, Bool.and_eq_false_iff, decide_eq_false_iff_not]
      left; omega
    exact ⟨s, [], by simp [soundLoop, hc], rfl, by simp⟩
  | succ n ih =>
    intro s hs
    rw [soundLoop]
    by_cases hc : soundCond c s = true
    · rw [if_pos hc]
      simp only []
      by_cases hneg : (soundEmit c s).clocks_remaining < 0
      · rw [if_pos hneg]
        split
        · rename_i timestamp rest hitems
          have hfuel : c.AUDIO_BUFFER_SAMPLES ≤
              (soundToggle (soundEmit c s) timestamp rest).sample_count + n := by
            simp only [soundToggle, soundEmit]; omega
          obtain ⟨s2, pre, h1, h2, h3⟩ := ih _ hfuel
          refine ⟨s2, OutputItem.OUT_SPEAKER_TIMESTAMP timestamp :: pre, h1, ?_, ?_⟩
          · have hs1 : (soundEmit c s).items = s.items := rfl
            rw [← hs1, hitems]
            simp only [soundToggle] at h2
            rw [h2]; rfl
          · intro it hit
            rcases List.mem_cons.mp hit with h | h
            · exact ⟨timestamp, h⟩
            · exact h3 it h
        · exact ⟨soundEmit c s, [], rfl, rfl, by simp⟩
      · rw [if_neg hneg]
        have hfuel : c.AUDIO_BUFFER_SAMPLES ≤ (soundEmit c s).sample_count + n := by
          simp only [soundEmit]; omega
        obtain ⟨s2, pre, h1, h2, h3⟩ := ih _ hfuel
        exact ⟨s2, pre, h1, h2, h3⟩
    · rw [if_neg hc]
      exact ⟨s, [], rfl, rfl, by simp⟩

theorem renderSoundEffect_total (c : Config) (q : OutputQueue) (first_timestamp : Nat) :
    ∃ ms call q2 pre, renderSoundEffect c q first_timestamp = Except.ok (ms, call, q2) ∧
      q.items = pre ++ q2.items ∧
      (∀ it ∈ pre, ∃ ts, it = OutputItem.OUT_SPEAKER_TIMESTAMP ts) ∧
      q2.frames = q.frames ∧ q2.rgb_pixels = q.rgb_pixels ∧
      q2.delay_remaining = q.delay_remaining ∧ isFrameCall call = false := by
  obtain ⟨s2, pre, h1, h2, h3⟩ :=
    soundLoop_total c c.AUDIO_BUFFER_SAMPLES (soundInit q first_timestamp)
      (by simp [soundInit])
  refine ⟨soundMillis c s2.sample_count,
    SinkCall.onRenderSound ((List.range s2.sample_count).map s2.pcm_samples) c.AUDIO_HZ,
    { q with items := s2.items, pcm_samples := s2.pcm_samples }, pre, ?_, h2, h3,
    rfl, rfl, rfl, rfl⟩
  unfold renderSoundEffect
  rw [h1]


theorem framePixels_append (c : Config) :
    ∀ (a b : List PushOp) (px : Nat → Nat),
      framePixels c (a ++ b) px = framePixels c b (framePixels c a px) := by
  intro a
  induction a with
  | nil => intro b px; rfl
  | cons op a ih =>
    intro b px
    rw [List.cons_append]
    cases op <;> simp only [framePixels] <;> exact ih _ _

theorem expectedFrameCalls_append (c : Config) :
    ∀ (a b : List PushOp) (px : Nat → Nat),
      expectedFrameCalls c (a ++ b) px =
        expectedFrameCalls c a px ++ expectedFrameCalls c b (framePixels c a px) := by
  intro a
  induction a with
  | nil => intro b px; rfl
  | cons op a ih =>
    intro b px
    rw [List.cons_append]
    cases op <;> simp only [framePixels, expectedFrameCalls, List.cons_append, ih]

/-- Items that are speaker timestamps at the front of the queue belong to
speaker pushes, which hold no frame and render none. -/
theorem speaker_prefix (c : Config) :
    ∀ (pre rest : List OutputItem) (ops : List PushOp),
      ops.map PushOp.item = pre ++ rest →
      (∀ it ∈ pre, ∃ ts, it = OutputItem.OUT_SPEAKER_TIMESTAMP ts) →
      ∃ A B, ops = A ++ B ∧ B.map PushOp.item = rest ∧ A.filterMap PushOp.frame = [] ∧
        (∀ px, framePixels c A px = px) ∧ (∀ px, expectedFrameCalls c A px = []) := by
  intro pre
  induction pre with
  | nil =>
    intro rest ops h _
    exact ⟨[], ops, rfl, h, rfl, fun _ => rfl, fun _ => rfl⟩
  | cons it pre ih =>
    intro rest ops h hall
    cases ops with
    | nil => simp at h
    | cons op ops =>
      simp only [List.map_cons, List.cons_append, List.cons.injEq] at h
      obtain ⟨hop, hrest⟩ := h
      obtain ⟨A, B, hAB, hB, hA1, hA2, hA3⟩ :=
        ih rest ops hrest (fun x hx => hall x (List.mem_cons_of_mem _ hx))
      obtain ⟨ts, hts⟩ := hall it (List.mem_cons_self _ _)
      rw [hts] at hop
      cases op with
      | frameCGA f => simp [PushOp.item] at hop
      | frameRGB f => simp [PushOp.item] at hop
      | delay d => simp [PushOp.item] at hop
      | speaker t =>
        refine ⟨PushOp.speaker t :: A, B, by rw [hAB]; rfl, hB, ?_, ?_, ?_⟩
        · simp [PushOp.frame, hA1]
        · intro px; simp only [framePixels]; exact hA2 px
        · intro px; simp only [expectedFrameCalls]; exact hA3 px

/-- One pass through the `switch` of `run`: the event at the front, and the
speaker timestamps after it when it is one, are consumed in order. -/
theorem dispatch_fifo (c : Config) (op : PushOp) (ops : List PushOp) (q1 : OutputQueue)
    (hitems : q1.items = ops.map PushOp.item)
    (hframes : q1.frames = (op :: ops).filterMap PushOp.frame) :
    ∃ q2 calls A B, dispatch c q1 op.item = Except.ok (q2, calls) ∧ ops = A ++ B ∧
      Queued B q2 ∧ q2.rgb_pixels = framePixels c (op :: A) q1.rgb_pixels ∧
      calls.filter isFrameCall = expectedFrameCalls c (op :: A) q1.rgb_pixels := by
  cases op with
  | frameCGA f =>
    have hf : q1.frames = f :: ops.filterMap PushOp.frame := by
      rw [hframes]; simp [PushOp.frame]
    refine ⟨{ q1 with rgb_pixels := decodeCGA c f q1.rgb_pixels,
                      frames := ops.filterMap PushOp.frame },
      [SinkCall.onRenderFrame ((List.range (c.SCREEN_WIDTH * c.SCREEN_HEIGHT)).map
        (decodeCGA c f q1.rgb_pixels))], [], ops, ?_, rfl,
      ⟨hitems, rfl⟩, rfl, ?_⟩
    · simp only [PushOp.item, dispatch, dequeueCGAFrame, hf]
      rfl
    · simp [renderFrame, isFrameCall, expectedFrameCalls]
  | frameRGB f =>
    have hf : q1.frames = ops.filterMap PushOp.frame := by
      rw [hframes]; simp [PushOp.frame]
    refine ⟨q1, [renderFrame c q1], [], ops, ?_, rfl, ⟨hitems, hf⟩, rfl, ?_⟩
    · simp only [PushOp.item, dispatch]
    · simp [renderFrame, isFrameCall, expectedFrameCalls]
  | delay d =>
    have hf : q1.frames = ops.filterMap PushOp.frame := by
      rw [hframes]; simp [PushOp.frame]
    refine ⟨{ q1 with delay_remaining := (q1.delay_remaining + d) % 2 ^ 32 }, [], [], ops,
      ?_, rfl, ⟨hitems, hf⟩, rfl, ?_⟩
    · simp only [PushOp.item, dispatch]
    · simp [expectedFrameCalls]
  | speaker ts =>
    have hf : q1.frames = ops.filterMap PushOp.frame := by
      rw [hframes]; simp [PushOp.frame]
    obtain ⟨ms, call, q2, pre, hr, hpre, hall, hfr, hpx, _, hcall⟩ :=
      renderSoundEffect_total c q1 ts
    obtain ⟨A, B, hAB, hB, hA1, hA2, hA3⟩ :=
      speaker_prefix c pre q2.items ops (by rw [← hitems]; exact hpre) hall
    refine ⟨{ q2 with delay_remaining := (q2.delay_remaining + ms) % 2 ^ 32 }, [call], A, B,
      ?_, hAB, ⟨hB.symm, ?_⟩, ?_, ?_⟩
    · simp only [PushOp.item, dispatch, hr]
    · show q2.frames = _
      rw [hfr, hf, hAB, List.filterMap_append, hA1, List.nil_append]
    · show q2.rgb_pixels = _
      rw [hpx]; simp only [framePixels]; exact (hA2 _).symm
    · simp only [expectedFrameCalls, hA3]
      simp [hcall]


/-- The loop of `run`, with fuel for every queued event, ends; what it
consumed is a prefix of the queued events, and the frames it rendered are
those of that prefix. -/
theorem runLoop_fifo (c : Config) :
    ∀ (fuel : Nat) (ops : List PushOp) (q : OutputQueue) (out : List SinkCall),
      Queued ops q → ops.length < fuel →
      ∃ res A B, runLoop c fuel q out = Except.ok res ∧ ops = A ++ B ∧ Queued B res.q ∧
        res.q.rgb_pixels = framePixels c A q.rgb_pixels ∧
        res.calls.filter isFrameCall =
          out.filter isFrameCall ++ expectedFrameCalls c A q.rgb_pixels := by
  intro fuel
  induction fuel with
  | zero => intro ops q out _ h; omega
  | succ n ih =>
    intro ops q out hq hlen
    rw [runLoop]
    by_cases hpos : 0 < q.delay_remaining
    · rw [if_pos hpos]
      exact ⟨_, [], ops, rfl, rfl, hq, rfl, by simp [expectedFrameCalls]⟩
    · rw [if_neg hpos]
      cases ops with
      | nil =>
        have hnil : q.items = [] := hq.1
        rw [hnil]
        exact ⟨_, [], [], rfl, rfl, hq, rfl, by simp [expectedFrameCalls]⟩
      | cons op ops =>
        have hitems : q.items = op.item :: ops.map PushOp.item := hq.1
        rw [hitems]
        simp only []
        obtain ⟨q2, calls, A1, B1, hd, hAB1, hQ1, hpx1, hcalls1⟩ :=
          dispatch_fifo c op ops { q with items := ops.map PushOp.item } rfl hq.2
        rw [hd]
        simp only []
        have hlen2 : B1.length < n := by
          have : (A1 ++ B1).length = ops.length := by rw [hAB1]
          rw [List.length_append] at this
          simp only [List.length_cons] at hlen
          omega
        obtain ⟨res, A2, B2, hr, hAB2, hQ2, hpx2, hcalls2⟩ := ih B1 q2 (out ++ calls) hQ1 hlen2
        refine ⟨res, op :: A1 ++ A2, B2, hr, ?_, hQ2, ?_, ?_⟩
        · rw [hAB1, hAB2]; simp
        · rw [hpx2, hpx1, framePixels_append]
        · rw [hcalls2, List.filter_append, hcalls1, hpx1, expectedFrameCalls_append,
            List.append_assoc]

/-- Any number of successive calls of `run` succeed; together they consume
a prefix of the queued events. -/
theorem runTimes_fifo (c : Config) :
    ∀ (n : Nat) (ops : List PushOp) (q : OutputQueue), Queued ops q →
      ∃ rets calls q2 A B, runTimes c n q = Except.ok (rets, calls, q2) ∧ ops = A ++ B ∧
        Queued B q2 ∧ q2.rgb_pixels = framePixels c A q.rgb_pixels ∧
        calls.filter isFrameCall = expectedFrameCalls c A q.rgb_pixels := by
  intro n
  induction n with
  | zero =>
    intro ops q hq
    exact ⟨[], [], q, [], ops, rfl, rfl, hq, rfl, rfl⟩
  | succ n ih =>
    intro ops q hq
    have hfuel : ops.length < q.items.length + 1 := by
      rw [hq.1, List.length_map]; omega
    obtain ⟨res, A1, B1, hr, hAB1, hQ1, hpx1, hcalls1⟩ :=
      runLoop_fifo c (q.items.length + 1) ops q [] hq hfuel
    obtain ⟨rets, calls, q2, A2, B2, hrt, hAB2, hQ2, hpx2, hcalls2⟩ := ih B1 res.q hQ1
    refine ⟨res.ret :: rets, res.calls ++ calls, q2, A1 ++ A2, B2, ?_, ?_, hQ2, ?_, ?_⟩
    · rw [runTimes]
      unfold run
      rw [hr]
      simp only []
      rw [hrt]
    · rw [hAB1, hAB2, List.append_assoc]
    · rw [hpx2, hpx1, framePixels_append]
    · rw [List.filter_append, hcalls1, hcalls2, hpx1, expectedFrameCalls_append]
      simp

theorem pushOp_queued (c : Config) (ops0 : List PushOp) (q q2 : OutputQueue) (op : PushOp)
    (hq : Queued ops0 q) (h : pushOp c q op = some q2) : Queued (ops0 ++ [op]) q2 := by
  obtain ⟨hi, hf⟩ := hq
  cases op with
  | frameCGA f =>
    simp only [pushOp, pushFrameCGA] at h
    split at h
    · rename_i heq
      injection h with h
      subst h
      split at heq
      · cases heq
      · injection heq with heq
        subst heq
        exact ⟨by simp [hi, PushOp.item], by simp [hf, PushOp.frame]⟩
    · cases h
  | frameRGB f =>
    simp only [pushOp, pushFrameRGB] at h
    split at h
    · rename_i heq
      injection h with h
      subst h
      split at heq
      · cases heq
      · injection heq with heq
        subst heq
        exact ⟨by simp [hi, PushOp.item], by simp [hf, PushOp.frame]⟩
    · cases h
  | delay d =>
    simp only [pushOp, pushDelay] at h
    split at h
    · cases h
    · rename_i hfull
      injection h with h
      subst h
      simp only [hfull]
      exact ⟨by simp [hi, PushOp.item], by simp [hf, PushOp.frame]⟩
  | speaker ts =>
    simp only [pushOp, pushSpeakerTimestamp] at h
    split at h
    · rename_i heq
      injection h with h
      subst h
      split at heq
      · cases heq
      · injection heq with heq
        subst heq
        exact ⟨by simp [hi, PushOp.item], by simp [hf, PushOp.frame]⟩
    · cases h

theorem pushAll_queued (c : Config) :
    ∀ (ops ops0 : List PushOp) (q q2 : OutputQueue),
      Queued ops0 q → pushAll c q ops = some q2 → Queued (ops0 ++ ops) q2 := by
  intro ops
  induction ops with
  | nil =>
    intro ops0 q q2 hq h
    simp only [pushAll] at h
    injection h with h
    subst h
    simpa using hq
  | cons op ops ih =>
    intro ops0 q q2 hq h
    rw [pushAll] at h
    split at h
    · cases h
    · rename_i q1 hop
      have := ih (ops0 ++ [op]) q1 q2 (pushOp_queued c ops0 q q1 op hq hop) h
      simpa using this

/-- With nothing owed, `run` consumes the event at the front, and whatever
else it takes follows in queue order, before it returns. -/
theorem run_front_fifo (c : Config) (op : PushOp) (ops : List PushOp) (q : OutputQueue)
    (hq : Queued (op :: ops) q) (hd : q.delay_remaining = 0) :
    ∃ res A B, run c q = Except.ok res ∧ ops = A ++ B ∧ Queued B res.q ∧
      res.q.rgb_pixels = framePixels c (op :: A) q.rgb_pixels ∧
      res.calls.filter isFrameCall = expectedFrameCalls c (op :: A) q.rgb_pixels := by
  have hitems : q.items = op.item :: ops.map PushOp.item := hq.1
  obtain ⟨q2, calls, A1, B1, hdisp, hAB1, hQ1, hpx1, hcalls1⟩ :=
    dispatch_fifo c op ops { q with items := ops.map PushOp.item } rfl hq.2
  have hlen : B1.length < ops.length + 1 := by
    have : (A1 ++ B1).length = ops.length := by rw [hAB1]
    rw [List.length_append] at this
    omega
  obtain ⟨res, A2, B2, hr, hAB2, hQ2, hpx2, hcalls2⟩ :=
    runLoop_fifo c (ops.length + 1) B1 q2 ([] ++ calls) hQ1 hlen
  refine ⟨res, A1 ++ A2, B2, ?_, ?_, hQ2, ?_, ?_⟩
  · unfold run
    rw [hitems, List.length_cons, List.length_map, runLoop, if_neg (by omega)]
    simp only [hitems]
    rw [hdisp]
    exact hr
  · rw [hAB1, hAB2, List.append_assoc]
  · rw [hpx2, hpx1, ← List.cons_append, framePixels_append]
  · rw [hcalls2, List.nil_append, hcalls1, hpx1, ← List.cons_append,
      expectedFrameCalls_append]

/-- Calls of `run` made one after another add up. -/
theorem runTimes_append (c : Config) :
    ∀ (n1 n2 : Nat) (q q1 q2 : OutputQueue) (r1 r2 : List Nat) (c1 c2 : List SinkCall),
      runTimes c n1 q = Except.ok (r1, c1, q1) →
      runTimes c n2 q1 = Except.ok (r2, c2, q2) →
      runTimes c (n1 + n2) q = Except.ok (r1 ++ r2, c1 ++ c2, q2) := by
  intro n1
  induction n1 with
  | zero =>
    intro n2 q q1 q2 r1 r2 c1 c2 h1 h2
    simp only [runTimes, Except.ok.injEq, Prod.mk.injEq] at h1
    obtain ⟨hr, hc, hq⟩ := h1
    subst hr; subst hc; subst hq
    simpa using h2
  | succ n ih =>
    intro n2 q q1 q2 r1 r2 c1 c2 h1 h2
    rw [show n + 1 + n2 = (n + n2) + 1 from by omega, runTimes]
    rw [runTimes] at h1
    split at h1
    · cases h1
    · rename_i res hres
      split at h1
      · cases h1
      · rename_i rets calls qm hm
        simp only [Except.ok.injEq, Prod.mk.injEq] at h1
        obtain ⟨hr, hc, hq⟩ := h1
        subst hr; subst hc; subst hq
        rw [ih n2 _ _ _ _ _ _ _ hm h2]
        simp

/-- An owed delay is paid off by calls of `run` that touch nothing else. -/
theorem runTimes_pay_delay (c : Config) :
    ∀ (d : Nat) (q : OutputQueue), q.delay_remaining = d →
      ∃ n rets, runTimes c n q = Except.ok (rets, [], { q with delay_remaining := 0 }) := by
  intro d
  induction d using Nat.strong_induction_on with
  | _ d ih =>
    intro q hd
    by_cases hpos : 0 < q.delay_remaining
    · have hrun : run c q = Except.ok
          { ret := min q.delay_remaining 100, calls := [],
            q := { q with delay_remaining := q.delay_remaining - min q.delay_remaining 100 } } := by
        simp [run, runLoop, hpos, max_delay_per_step]
      obtain ⟨n, rets, hn⟩ :=
        ih (q.delay_remaining - min q.delay_remaining 100) (by omega)
          { q with delay_remaining := q.delay_remaining - min q.delay_remaining 100 } rfl
      refine ⟨n + 1, min q.delay_remaining 100 :: rets, ?_⟩
      rw [runTimes, hrun]
      simp only []
      rw [hn]
      rfl
    · refine ⟨0, [], ?_⟩
      have hz : q.delay_remaining = 0 := by omega
      simp only [runTimes]
      congr 3
      cases q
      simp only at hz
      rw [hz]

/-- Enough calls of `run` consume every queued event, in queue order. -/
theorem runTimes_drain (c : Config) :
    ∀ (m : Nat) (ops : List PushOp) (q : OutputQueue), ops.length = m → Queued ops q →
      ∃ n rets calls q2, runTimes c n q = Except.ok (rets, calls, q2) ∧
        q2.items = [] ∧ q2.frames = [] ∧
        calls.filter isFrameCall = expectedFrameCalls c ops q.rgb_pixels := by
  intro m
  induction m using Nat.strong_induction_on with
  | _ m ih =>
    intro ops q hlen hq
    obtain ⟨n0, rets0, h0⟩ := runTimes_pay_delay c q.delay_remaining q rfl
    cases ops with
    | nil =>
      exact ⟨n0, rets0, [], _, h0, hq.1, hq.2, rfl⟩
    | cons op ops =>
      obtain ⟨res, A, B, hr, hAB, hQB, hpx, hcalls⟩ :=
        run_front_fifo c op ops { q with delay_remaining := 0 } hq rfl
      have hB : B.length < m := by
        have : (A ++ B).length = ops.length := by rw [hAB]
        rw [List.length_append] at this
        simp only [List.length_cons] at hlen
        omega
      obtain ⟨n2, rets2, calls2, q2, h2, hi2, hf2, hc2⟩ := ih B.length hB B res.q rfl hQB
      have h1 : runTimes c 1 { q with delay_remaining := 0 } =
          Except.ok ([res.ret], res.calls, res.q) := by
        simp [runTimes, hr]
      have h12 := runTimes_append c 1 n2 _ _ _ _ _ _ _ h1 h2
      have h012 := runTimes_append c n0 (1 + n2) _ _ _ _ _ _ _ h0 h12
      refine ⟨n0 + (1 + n2), _, _, q2, h012, hi2, hf2, ?_⟩
      rw [List.nil_append, List.filter_append, hcalls, hc2, hpx]
      show _ = expectedFrameCalls c (op :: ops) q.rgb_pixels
      rw [hAB, ← List.cons_append, expectedFrameCalls_append]

theorem pushOp_delay_remaining (c : Config) (q q2 : OutputQueue) (op : PushOp)
    (h : pushOp c q op = some q2) : q2.delay_remaining = q.delay_remaining := by
  cases op with
  | frameCGA f =>
    simp only [pushOp, pushFrameCGA] at h
    split at h
    · rename_i heq
      injection h with h
      subst h
      split at heq
      · cases heq
      · injection heq with heq
        subst heq
        rfl
    · cases h
  | frameRGB f =>
    simp only [pushOp, pushFrameRGB] at h
    split at h
    · rename_i heq
      injection h with h
      subst h
      split at heq
      · cases heq
      · injection heq with heq
        subst heq
        rfl
    · cases h
  | delay d =>
    simp only [pushOp, pushDelay] at h
    split at h
    · cases h
    · rename_i hfull
      injection h with h
      subst h
      simp only [hfull]
      rfl
  | speaker ts =>
    simp only [pushOp, pushSpeakerTimestamp] at h
    split at h
    · rename_i heq
      injection h with h
      subst h
      split at heq
      · cases heq
      · injection heq with heq
        subst heq
        rfl
    · cases h

theorem pushAll_delay_remaining (c : Config) :
    ∀ (ops : List PushOp) (q q2 : OutputQueue), pushAll c q ops = some q2 →
      q2.delay_remaining = q.delay_remaining := by
  intro ops
  induction ops with
  | nil =>
    intro q q2 h
    simp only [pushAll] at h
    injection h with h
    rw [h]
  | cons op ops ih =>
    intro q q2 h
    rw [pushAll] at h
    split at h
    · cases h
    · rename_i q1 hop
      rw [ih q1 q2 h, pushOp_delay_remaining c q q1 op hop]

/-- C5: events drain in FIFO order. Let `ops` be pushes that all succeed on a
cleared queue. Then the item queue holds their items in push order and the
ring their frames in push order. Any number `n` of calls of `run` succeed,
and what they consumed is a prefix `consumed` of `ops` while the rest stays
queued in order (speaker timestamps taken inside `renderSoundEffect`
included), the frames handed to the rendering sink being, in order, those of
the frame events in `consumed`, every CGA frame event decoding the frame
that was pushed with it. The first call of `run` consumes the event pushed
first. And some number of calls of `run` consumes the whole of `ops`: it
leaves the item queue and the ring empty, having handed to the rendering
sink the frames of all frame events of `ops` in push order. -/
theorem run_fifo (c : Config) (q0 q : OutputQueue) (ops : List PushOp)
    (h : pushAll c (clear q0) ops = some q) (n : Nat) :
    (q.items = ops.map PushOp.item ∧ q.frames = ops.filterMap PushOp.frame) ∧
    (∃ rets calls q2 consumed remaining,
      runTimes c n q = Except.ok (rets, calls, q2) ∧
      ops = consumed ++ remaining ∧
      q2.items = remaining.map PushOp.item ∧
      q2.frames = remaining.filterMap PushOp.frame ∧
      calls.filter isFrameCall = expectedFrameCalls c consumed q.rgb_pixels) ∧
    (∀ op ops2, ops = op :: ops2 →
      ∃ res consumed remaining, run c q = Except.ok res ∧
        ops2 = consumed ++ remaining ∧
        res.q.items = remaining.map PushOp.item ∧
        res.q.frames = remaining.filterMap PushOp.frame ∧
        res.calls.filter isFrameCall = expectedFrameCalls c (op :: consumed) q.rgb_pixels) ∧
    (∃ m rets calls q2,
      runTimes c m q = Except.ok (rets, calls, q2) ∧
      q2.items = [] ∧ q2.frames = [] ∧
      calls.filter isFrameCall = expectedFrameCalls c ops q.rgb_pixels) := by
  have h0 : Queued [] (clear q0) := ⟨rfl, rfl⟩
  have hq : Queued ops q := by
    have := pushAll_queued c ops [] (clear q0) q h0 h
    simpa using this
  have hd : q.delay_remaining = 0 := pushAll_delay_remaining c ops (clear q0) q h
  refine ⟨hq, ?_, ?_, ?_⟩
  · obtain ⟨rets, calls, q2, A, B, hrt, hAB, hQ, _, hcalls⟩ := runTimes_fifo c n ops q hq
    exact ⟨rets, calls, q2, A, B, hrt, hAB, hQ.1, hQ.2, hcalls⟩
  · intro op ops2 hops
    rw [hops] at hq
    obtain ⟨res, A, B, hr, hAB, hQB, _, hcalls⟩ := run_front_fifo c op ops2 q hq hd
    exact ⟨res, A, B, hr, hAB, hQB.1, hQB.2, hcalls⟩
  · exact runTimes_drain c ops.length ops q rfl hq

/-- C5, on the small configuration: a CGA frame, a delay of 5 ms and the
speaker timestamps 0 and 100 are pushed. Two calls of `run` return 5 and 1,
hand the decoded frame and then the two samples of the sound effect to the
sinks, and leave the queue empty. -/
theorem run_fifo_witness :
    pushAll demoConfig (clear emptyQueue) demoOps =
      some { emptyQueue with items := demoOps.map PushOp.item, frames := [demoFrame] } ∧
    runTimes demoConfig 2
        { emptyQueue with items := demoOps.map PushOp.item, frames := [demoFrame] } =
      Except.ok ([5, 1],
        [SinkCall.onRenderFrame
            ((List.range (demoConfig.SCREEN_WIDTH * demoConfig.SCREEN_HEIGHT)).map
              (decodeCGA demoConfig demoFrame emptyQueue.rgb_pixels)),
          SinkCall.onRenderSound [1, 0] 44100],
        { emptyQueue with
          rgb_pixels := decodeCGA demoConfig demoFrame emptyQueue.rgb_pixels,
          pcm_samples := storeAt (storeAt emptyQueue.pcm_samples 0 1) 1 0 }) ∧
    (∃ rets calls q2 consumed remaining,
      runTimes demoConfig 2
          { emptyQueue with items := demoOps.map PushOp.item, frames := [demoFrame] } =
        Except.ok (rets, calls, q2) ∧
      demoOps = consumed ++ remaining ∧
      q2.items = remaining.map PushOp.item ∧
      q2.frames = remaining.filterMap PushOp.frame ∧
      calls.filter isFrameCall =
        expectedFrameCalls demoConfig consumed emptyQueue.rgb_pixels) ∧
    (∃ m rets calls q2,
      runTimes demoConfig m
          { emptyQueue with items := demoOps.map PushOp.item, frames := [demoFrame] } =
        Except.ok (rets, calls, q2) ∧
      q2.items = [] ∧ q2.frames = [] ∧
      calls.filter isFrameCall =
        expectedFrameCalls demoConfig demoOps emptyQueue.rgb_pixels) :=
  ⟨by rfl, by rfl,
    (run_fifo demoConfig emptyQueue
      { emptyQueue with items := demoOps.map PushOp.item, frames := [demoFrame] }
      demoOps (by rfl) 2).2.1,
    (run_fifo demoConfig emptyQueue
      { emptyQueue with items := demoOps.map PushOp.item, frames := [demoFrame] }
      demoOps (by rfl) 2).2.2.2⟩

/-! ### `pushDelay` and `skipDelay` -/

theorem pushDelay_outcome (c : Config) (q : OutputQueue) (ms : Nat) :
    pushDelay c q ms =
      if full c.ITEM_CAPACITY q.items then q
      else { q with items := q.items ++ [OutputItem.OUT_DELAY ms] } := by
  unfold pushDelay
  cases h : full c.ITEM_CAPACITY q.items <;> simp

theorem skipDelayLoop_spec :
    ∀ (items : List OutputItem),
      ∃ pre, items = pre ++ skipDelayLoop items ∧
        (∀ it ∈ pre, ∃ d, it = OutputItem.OUT_DELAY d) ∧
        (∀ it rest, skipDelayLoop items = it :: rest → ∀ d, it ≠ OutputItem.OUT_DELAY d) := by
  intro items
  induction items with
  | nil => exact ⟨[], rfl, by simp, by simp [skipDelayLoop]⟩
  | cons a t ih =>
    cases a with
    | OUT_DELAY d =>
      obtain ⟨pre, h1, h2, h3⟩ := ih
      refine ⟨OutputItem.OUT_DELAY d :: pre, ?_, ?_, ?_⟩
      · simp only [skipDelayLoop, List.cons_append]; rw [← h1]
      · intro it hit
        rcases List.mem_cons.mp hit with h | h
        · exact ⟨d, h⟩
        · exact h2 it h
      · simpa only [skipDelayLoop] using h3
    | OUT_CGA_FRAME =>
      refine ⟨[], rfl, by simp, ?_⟩
      intro it rest h d
      simp only [skipDelayLoop, List.cons.injEq] at h
      rw [← h.1]; simp
    | OUT_RGB_FRAME =>
      refine ⟨[], rfl, by simp, ?_⟩
      intro it rest h d
      simp only [skipDelayLoop, List.cons.injEq] at h
      rw [← h.1]; simp
    | OUT_SPEAKER_TIMESTAMP ts =>
      refine ⟨[], rfl, by simp, ?_⟩
      intro it rest h d
      simp only [skipDelayLoop, List.cons.injEq] at h
      rw [← h.1]; simp

/-- With nothing owed, `run` consumes the event at the front before it
returns. -/
theorem run_consumes_front (c : Config) (op : PushOp) (ops : List PushOp) (q : OutputQueue)
    (hq : Queued (op :: ops) q) (hd : q.delay_remaining = 0) :
    ∃ res A B, run c q = Except.ok res ∧ ops = A ++ B ∧ Queued B res.q ∧
      res.calls.filter isFrameCall = expectedFrameCalls c (op :: A) q.rgb_pixels := by
  have hitems : q.items = op.item :: ops.map PushOp.item := hq.1
  obtain ⟨q2, calls, A1, B1, hdisp, hAB1, hQ1, hpx1, hcalls1⟩ :=
    dispatch_fifo c op ops { q with items := ops.map PushOp.item } rfl hq.2
  have hlen : B1.length < ops.length + 1 := by
    have : (A1 ++ B1).length = ops.length := by rw [hAB1]
    rw [List.length_append] at this
    omega
  obtain ⟨res, A2, B2, hr, hAB2, hQ2, _, hcalls2⟩ :=
    runLoop_fifo c (ops.length + 1) B1 q2 ([] ++ calls) hQ1 hlen
  refine ⟨res, A1 ++ A2, B2, ?_, ?_, hQ2, ?_⟩
  · unfold run
    rw [hitems, List.length_cons, List.length_map, runLoop, if_neg (by omega)]
    simp only [hitems]
    rw [hdisp]
    exact hr
  · rw [hAB1, hAB2, List.append_assoc]
  · rw [hcalls2, List.nil_append, hcalls1, hpx1, ← List.cons_append,
      expectedFrameCalls_append]


/-- C11: `pushDelay` has no failing outcome. On a full item queue it returns
the state unchanged; otherwise it appends one delay item carrying `ms` at
the back of the item queue and changes nothing else. -/
theorem pushDelay_never_fails (c : Config) (q : OutputQueue) (ms : Nat) :
    if full c.ITEM_CAPACITY q.items then pushDelay c q ms = q
    else (pushDelay c q ms).items = q.items ++ [OutputItem.OUT_DELAY ms] ∧
      (pushDelay c q ms).frames = q.frames ∧
      (pushDelay c q ms).rgb_pixels = q.rgb_pixels ∧
      (pushDelay c q ms).pcm_samples = q.pcm_samples ∧
      (pushDelay c q ms).delay_remaining = q.delay_remaining := by
  rw [pushDelay_outcome]
  cases h : full c.ITEM_CAPACITY q.items <;> simp

/-- C12: `skipDelay` zeroes the owed delay, leaves the frame ring and the
buffers alone, and removes from the item queue exactly the delay items that
stand in front of the first item that is not a delay. After a `pushDelay`
and pushes of further events onto a cleared queue, the first of which (`op`)
is not a delay, `skipDelay` leaves exactly those further events queued, and
the next `run` consumes `op` before it returns. -/
theorem skipDelay_spec (c : Config) (q q0 qp : OutputQueue) (d : Nat) (op : PushOp)
    (ops : List PushOp) (hop : ∀ m, op ≠ PushOp.delay m)
    (hpush : pushAll c (clear q0) (PushOp.delay d :: op :: ops) = some qp) :
    ((skipDelay q).delay_remaining = 0 ∧ (skipDelay q).frames = q.frames ∧
      (skipDelay q).rgb_pixels = q.rgb_pixels ∧ (skipDelay q).pcm_samples = q.pcm_samples ∧
      (∃ pre, q.items = pre ++ (skipDelay q).items ∧
        ∀ it ∈ pre, ∃ m, it = OutputItem.OUT_DELAY m) ∧
      (∀ it rest, (skipDelay q).items = it :: rest → ∀ m, it ≠ OutputItem.OUT_DELAY m)) ∧
    ((skipDelay qp).items = (op :: ops).map PushOp.item ∧
      (skipDelay qp).delay_remaining = 0 ∧
      ∃ res A B, run c (skipDelay qp) = Except.ok res ∧ ops = A ++ B ∧
        res.q.items = B.map PushOp.item ∧ res.q.frames = B.filterMap PushOp.frame ∧
        res.calls.filter isFrameCall = expectedFrameCalls c (op :: A) qp.rgb_pixels) := by
  constructor
  · obtain ⟨pre, h1, h2, h3⟩ := skipDelayLoop_spec q.items
    exact ⟨rfl, rfl, rfl, rfl, ⟨pre, h1, h2⟩, h3⟩
  · have hQ : Queued (PushOp.delay d :: op :: ops) qp := by
      have := pushAll_queued c _ [] (clear q0) qp ⟨rfl, rfl⟩ hpush
      simpa using this
    have hitems : (skipDelay qp).items = (op :: ops).map PushOp.item := by
      show skipDelayLoop qp.items = _
      rw [hQ.1]
      cases op with
      | frameCGA f => rfl
      | frameRGB f => rfl
      | delay m => exact absurd rfl (hop m)
      | speaker t => rfl
    have hframes : (skipDelay qp).frames = (op :: ops).filterMap PushOp.frame := by
      show qp.frames = _
      rw [hQ.2]
      rfl
    obtain ⟨res, A, B, hr, hAB, hQB, hcalls⟩ :=
      run_consumes_front c op ops (skipDelay qp) ⟨hitems, hframes⟩ rfl
    exact ⟨hitems, rfl, res, A, B, hr, hAB, hQB.1, hQB.2, hcalls⟩

/-- C12, on the small configuration: a delay of 250 ms, an RGB frame and a
speaker timestamp are pushed; `skipDelay` leaves the frame at the front. -/
theorem skipDelay_spec_witness :
    ((∀ m, PushOp.frameRGB (fun _ => 7) ≠ PushOp.delay m) ∧
      pushAll demoConfig (clear emptyQueue)
        [PushOp.delay 250, PushOp.frameRGB (fun _ => 7), PushOp.speaker 3] =
        some { emptyQueue with
          items := [OutputItem.OUT_DELAY 250, OutputItem.OUT_RGB_FRAME,
            OutputItem.OUT_SPEAKER_TIMESTAMP 3],
          rgb_pixels := fun i => if i < 32 then 7 else 0 }) ∧
    (skipDelay { emptyQueue with
          items := [OutputItem.OUT_DELAY 250, OutputItem.OUT_RGB_FRAME,
            OutputItem.OUT_SPEAKER_TIMESTAMP 3],
          rgb_pixels := fun i => if i < 32 then 7 else 0 }).items =
      [OutputItem.OUT_RGB_FRAME, OutputItem.OUT_SPEAKER_TIMESTAMP 3] :=
  ⟨⟨fun m h => PushOp.noConfusion h, by rfl⟩,
    (skipDelay_spec demoConfig emptyQueue emptyQueue _ 250 (PushOp.frameRGB (fun _ => 7))
      [PushOp.speaker 3] (fun m h => PushOp.noConfusion h) (by rfl)).2.1⟩

/-! ### Frames and CGA frame items -/

theorem cgaCount_append (a b : List OutputItem) :
    cgaCount (a ++ b) = cgaCount a + cgaCount b := by
  induction a with
  | nil => simp [cgaCount]
  | cons x t ih =>
    rw [List.cons_append]
    cases x <;> simp only [cgaCount, ih]
    omega

theorem cgaCount_skipDelayLoop (items : List OutputItem) :
    cgaCount (skipDelayLoop items) = cgaCount items := by
  induction items with
  | nil => rfl
  | cons x t ih =>
    cases x <;> simp only [skipDelayLoop, cgaCount, ih]

theorem cgaCount_map_item (ops : List PushOp) :
    cgaCount (ops.map PushOp.item) = (ops.filterMap PushOp.frame).length := by
  induction ops with
  | nil => rfl
  | cons op ops ih =>
    cases op <;> simp [cgaCount, PushOp.item, PushOp.frame, ih]

theorem queued_cgaCount (ops : List PushOp) (q : OutputQueue) (h : Queued ops q) :
    cgaCount q.items = q.frames.length := by
  rw [h.1, h.2]
  exact cgaCount_map_item ops

theorem cgaCount_queued :
    ∀ (items : List OutputItem) (frames : List CGAFramebuffer),
      cgaCount items = frames.length →
      ∃ ops : List PushOp, items = ops.map PushOp.item ∧ frames = ops.filterMap PushOp.frame := by
  intro items
  induction items with
  | nil =>
    intro frames h
    have : frames = [] := List.length_eq_zero.mp (by simpa [cgaCount] using h.symm)
    exact ⟨[], rfl, by simp [this]⟩
  | cons x t ih =>
    intro frames h
    cases x with
    | OUT_CGA_FRAME =>
      cases frames with
      | nil => simp [cgaCount] at h
      | cons f fs =>
        simp only [cgaCount, List.length_cons, Nat.add_right_cancel_iff] at h
        obtain ⟨ops, h1, h2⟩ := ih fs h
        exact ⟨PushOp.frameCGA f :: ops, by simp [PushOp.item, h1], by simp [PushOp.frame, h2]⟩
    | OUT_RGB_FRAME =>
      obtain ⟨ops, h1, h2⟩ := ih frames (by simpa [cgaCount] using h)
      exact ⟨PushOp.frameRGB (fun _ => 0) :: ops, by simp [PushOp.item, h1],
        by simp [PushOp.frame, h2]⟩
    | OUT_DELAY d =>
      obtain ⟨ops, h1, h2⟩ := ih frames (by simpa [cgaCount] using h)
      exact ⟨PushOp.delay d :: ops, by simp [PushOp.item, h1], by simp [PushOp.frame, h2]⟩
    | OUT_SPEAKER_TIMESTAMP ts =>
      obtain ⟨ops, h1, h2⟩ := ih frames (by simpa [cgaCount] using h)
      exact ⟨PushOp.speaker ts :: ops, by simp [PushOp.item, h1], by simp [PushOp.frame, h2]⟩

/-- On a queue with as many frames as CGA frame items, `run` returns and
keeps that balance. -/
theorem run_balanced (c : Config) (q : OutputQueue)
    (h : cgaCount q.items = q.frames.length) :
    ∃ res, run c q = Except.ok res ∧ cgaCount res.q.items = res.q.frames.length := by
  obtain ⟨ops, h1, h2⟩ := cgaCount_queued q.items q.frames h
  have hfuel : ops.length < q.items.length + 1 := by
    rw [h1, List.length_map]; omega
  obtain ⟨res, A, B, hr, _, hQ, _, _⟩ := runLoop_fifo c _ ops q [] ⟨h1, h2⟩ hfuel
  exact ⟨res, hr, queued_cgaCount B res.q hQ⟩

theorem reachable_balanced (c : Config) (q : OutputQueue) (h : Reachable c q) :
    cgaCount q.items = q.frames.length := by
  induction h with
  | constructed q0 => rfl
  | afterClear _ _ => rfl
  | afterSkipDelay _ ih =>
    show cgaCount (skipDelayLoop _) = _
    rw [cgaCount_skipDelayLoop]; exact ih
  | @afterPushFrameCGA q f _ ih =>
    unfold pushFrameCGA
    split
    · exact ih
    · simp only [PushResult.state, cgaCount_append, List.length_append, ih]
      rfl
  | @afterPushFrameRGB q f _ ih =>
    unfold pushFrameRGB
    split
    · exact ih
    · simp only [PushResult.state, cgaCount_append, ih]
      rfl
  | @afterPushDelay q d _ ih =>
    unfold pushDelay
    split
    · simp only [cgaCount_append, ih]
      rfl
    · exact ih
  | @afterPushSpeakerTimestamp q ts _ ih =>
    unfold pushSpeakerTimestamp
    split
    · exact ih
    · simp only [PushResult.state, cgaCount_append, ih]
      rfl
  | @afterRun q res _ hrun ih =>
    obtain ⟨res2, hr2, hb⟩ := run_balanced c q ih
    rw [hrun] at hr2
    injection hr2 with hr2
    rw [hr2]
    exact hb


/-- C18: in every reachable state the item queue holds as many CGA frame
items as the ring holds frames, and `run` returns from it (so the assertion
of `dequeueCGAFrame` holds whenever `run` pops a CGA frame item) into a
state that again has that balance. -/
theorem reachable_frames_match (c : Config) (q : OutputQueue) (h : Reachable c q) :
    cgaCount q.items = q.frames.length ∧
    (∃ res, run c q = Except.ok res ∧ cgaCount res.q.items = res.q.frames.length) ∧
    run c q ≠ Except.error RunError.assertFailed ∧
    (∀ rest, q.items = OutputItem.OUT_CGA_FRAME :: rest →
      (dequeueCGAFrame c { q with items := rest }).isSome = true) := by
  have hb := reachable_balanced c q h
  obtain ⟨res, hr, hres⟩ := run_balanced c q hb
  refine ⟨hb, ⟨res, hr, hres⟩, ?_, ?_⟩
  · rw [hr]; intro hne; cases hne
  · intro rest hitems
    rw [hitems] at hb
    unfold dequeueCGAFrame
    cases hf : q.frames with
    | nil => rw [hf] at hb; simp [cgaCount] at hb
    | cons f fs => rfl

/-- C18, for the state reached by `pushFrameCGA` and `pushDelay` on a new
queue. -/
theorem reachable_frames_match_witness :
    Reachable demoConfig
        (pushDelay demoConfig (pushFrameCGA demoConfig (clear emptyQueue) demoFrame).state 5) ∧
    cgaCount
        (pushDelay demoConfig (pushFrameCGA demoConfig (clear emptyQueue) demoFrame).state 5).items =
      (pushDelay demoConfig (pushFrameCGA demoConfig (clear emptyQueue) demoFrame).state
        5).frames.length :=
  ⟨Reachable.afterPushDelay 5 (Reachable.afterPushFrameCGA demoFrame
      (Reachable.constructed emptyQueue)),
    (reachable_frames_match demoConfig _
      (Reachable.afterPushDelay 5 (Reachable.afterPushFrameCGA demoFrame
        (Reachable.constructed emptyQueue)))).1⟩

/-! ### Termination -/

theorem dispatch_error (c : Config) (q1 : OutputQueue) (item : OutputItem) (e : RunError)
    (h : dispatch c q1 item = Except.error e) : e = RunError.assertFailed := by
  cases item with
  | OUT_CGA_FRAME =>
    simp only [dispatch] at h
    split at h
    · injection h with h; exact h.symm
    · cases h
  | OUT_RGB_FRAME => simp [dispatch] at h
  | OUT_DELAY d => simp [dispatch] at h
  | OUT_SPEAKER_TIMESTAMP ts =>
    obtain ⟨ms, call, q2, pre, hr, _⟩ := renderSoundEffect_total c q1 ts
    simp [dispatch, hr] at h

theorem dispatch_items_length (c : Config) (q1 q2 : OutputQueue) (item : OutputItem)
    (calls : List SinkCall) (h : dispatch c q1 item = Except.ok (q2, calls)) :
    q2.items.length ≤ q1.items.length := by
  cases item with
  | OUT_CGA_FRAME =>
    simp only [dispatch, dequeueCGAFrame] at h
    split at h
    · cases h
    · rename_i q3 hq3
      split at hq3
      · cases hq3
      · injection hq3 with hq3
        simp only [Except.ok.injEq, Prod.mk.injEq] at h
        rw [← h.1, ← hq3]
  | OUT_RGB_FRAME =>
    simp only [dispatch, Except.ok.injEq, Prod.mk.injEq] at h
    rw [← h.1]
  | OUT_DELAY d =>
    simp only [dispatch, Except.ok.injEq, Prod.mk.injEq] at h
    rw [← h.1]
  | OUT_SPEAKER_TIMESTAMP ts =>
    obtain ⟨ms, call, q3, pre, hr, hpre, _⟩ := renderSoundEffect_total c q1 ts
    simp only [dispatch, hr, Except.ok.injEq, Prod.mk.injEq] at h
    rw [← h.1, hpre, List.length_append]
    exact Nat.le_add_left _ _

/-- One unit of fuel more than there are items is enough for the loop of
`run`. -/
theorem runLoop_fuel (c : Config) :
    ∀ (fuel : Nat) (q : OutputQueue) (out : List SinkCall), q.items.length < fuel →
      runLoop c fuel q out ≠ Except.error RunError.outOfFuel := by
  intro fuel
  induction fuel with
  | zero => intro q out h; omega
  | succ n ih =>
    intro q out hlen
    rw [runLoop]
    split
    · intro h; cases h
    · split
      · intro h; cases h
      · rename_i item rest hitems
        split
        · rename_i e he
          have := dispatch_error c _ item e he
          rw [this]
          intro h; cases h
        · rename_i q2 calls hd
          have hl := dispatch_items_length c _ q2 item calls hd
          apply ih
          rw [hitems] at hlen
          simp only [List.length_cons] at hlen
          have : ({ q with items := rest } : OutputQueue).items.length = rest.length := rfl
          omega

/-- C20: `renderSoundEffect` and `run` terminate on every queue state. Each
iteration of the sound loop adds one to the sample count, and fuel for
`AUDIO_BUFFER_SAMPLES` iterations is never used up; each iteration of the
loop of `run` that goes on leaves no more items than the popped queue had,
and fuel for one iteration more than there are items is never used up. -/
theorem run_terminates (c : Config) (q : OutputQueue) (first_timestamp : Nat) :
    (∃ r, renderSoundEffect c q first_timestamp = Except.ok r) ∧
    (∀ s : SoundState, (soundEmit c s).sample_count = s.sample_count + 1) ∧
    (∀ s : SoundState, ∀ fuel, c.AUDIO_BUFFER_SAMPLES ≤ s.sample_count + fuel →
      ∃ s2, soundLoop c fuel s = Except.ok s2) ∧
    run c q ≠ Except.error RunError.outOfFuel ∧
    (∀ fuel out, q.items.length + 1 ≤ fuel →
      runLoop c fuel q out ≠ Except.error RunError.outOfFuel) ∧
    (∀ item rest q2 calls, q.items = item :: rest →
      dispatch c { q with items := rest } item = Except.ok (q2, calls) →
      q2.items.length < q.items.length) := by
  refine ⟨?_, fun _ => rfl, ?_, ?_, ?_, ?_⟩
  · obtain ⟨ms, call, q2, _, hr, _⟩ := renderSoundEffect_total c q first_timestamp
    exact ⟨_, hr⟩
  · intro s fuel hf
    obtain ⟨s2, _, h, _⟩ := soundLoop_total c fuel s hf
    exact ⟨s2, h⟩
  · exact runLoop_fuel c _ q [] (Nat.lt_succ_self _)
  · intro fuel out hf
    exact runLoop_fuel c fuel q out hf
  · intro item rest q2 calls hitems hd
    have := dispatch_items_length c _ q2 item calls hd
    rw [hitems, List.length_cons]
    exact Nat.lt_succ_of_le this

/-! ### Sound synthesis -/

/-- How the loop of `renderSoundEffect` ends: the items it removed are
speaker timestamps from the front, the sample count grew without passing
`AUDIO_BUFFER_SAMPLES`, and the loop stopped for one of four reasons. -/
theorem soundLoop_stop (c : Config) :
    ∀ (fuel : Nat) (s : SoundState), c.AUDIO_BUFFER_SAMPLES ≤ s.sample_count + fuel →
      s.sample_count ≤ c.AUDIO_BUFFER_SAMPLES →
      ∃ s2 pre, soundLoop c fuel s = Except.ok s2 ∧ s.items = pre ++ s2.items ∧
        (∀ it ∈ pre, ∃ ts, it = OutputItem.OUT_SPEAKER_TIMESTAMP ts) ∧
        s.sample_count ≤ s2.sample_count ∧ s2.sample_count ≤ c.AUDIO_BUFFER_SAMPLES ∧
        (soundCond c s = true → s.sample_count < s2.sample_count) ∧
        (s2.sample_count = c.AUDIO_BUFFER_SAMPLES ∨ s2.items = [] ∨
          (∃ it rest, s2.items = it :: rest ∧ ∀ ts, it ≠ OutputItem.OUT_SPEAKER_TIMESTAMP ts) ∨
          (s2.clocks_remaining < 0 ∧ (pre ≠ [] ∨ s2 = s))) := by
  intro fuel
  induction fuel with
  | zero =>
    intro s hs hle
    have hc : soundCond c s = false := by
      simp only [soundCond, Bool.and_eq_false_iff, decide_eq_false_iff_not]
      left; omega
    refine ⟨s, [], by simp [soundLoop, hc], rfl, by simp, Nat.le_refl _, hle, ?_, ?_⟩
    · rw [hc]; intro h; cases h
    · left; omega
  | succ n ih =>
    intro s hs hle
    rw [soundLoop]
    by_cases hc : soundCond c s = true
    · rw [if_pos hc]
      simp only []
      have hlt : s.sample_count < c.AUDIO_BUFFER_SAMPLES := by
        simp only [soundCond, Bool.and_eq_true, decide_eq_true_iff] at hc
        exact hc.1
      have hcount : (soundEmit c s).sample_count = s.sample_count + 1 := rfl
      by_cases hneg : (soundEmit c s).clocks_remaining < 0
      · rw [if_pos hneg]
        split
        · rename_i timestamp rest hitems
          have hcount2 : (soundToggle (soundEmit c s) timestamp rest).sample_count =
              s.sample_count + 1 := rfl
          obtain ⟨s2, pre, h1, h2, h3, h4, h5, _, h7⟩ :=
            ih (soundToggle (soundEmit c s) timestamp rest) (by omega) (by omega)
          refine ⟨s2, OutputItem.OUT_SPEAKER_TIMESTAMP timestamp :: pre, h1, ?_, ?_,
            by omega, h5, fun _ => by omega, ?_⟩
          · have hs1 : (soundEmit c s).items = s.items := rfl
            rw [← hs1, hitems]
            simp only [soundToggle] at h2
            rw [h2]; rfl
          · intro it hit
            rcases List.mem_cons.mp hit with h | h
            · exact ⟨timestamp, h⟩
            · exact h3 it h
          · rcases h7 with h | h | h | ⟨h, _⟩
            · exact Or.inl h
            · exact Or.inr (Or.inl h)
            · exact Or.inr (Or.inr (Or.inl h))
            · exact Or.inr (Or.inr (Or.inr ⟨h, Or.inl (List.cons_ne_nil _ _)⟩))
        · rename_i hnot
          refine ⟨soundEmit c s, [], rfl, rfl, by simp, by omega, by omega,
            fun _ => by omega, ?_⟩
          cases hit : (soundEmit c s).items with
          | nil => exact Or.inr (Or.inl rfl)
          | cons it rest =>
            refine Or.inr (Or.inr (Or.inl ⟨it, rest, rfl, ?_⟩))
            intro ts hts
            rw [hts] at hit
            exact hnot ts rest hit
      · rw [if_neg hneg]
        obtain ⟨s2, pre, h1, h2, h3, h4, h5, _, h7⟩ := ih (soundEmit c s) (by omega) (by omega)
        refine ⟨s2, pre, h1, h2, h3, by omega, h5, fun _ => by omega, ?_⟩
        rcases h7 with h | h | h | ⟨h, hp | he⟩
        · exact Or.inl h
        · exact Or.inr (Or.inl h)
        · exact Or.inr (Or.inr (Or.inl h))
        · exact Or.inr (Or.inr (Or.inr ⟨h, Or.inl hp⟩))
        · rw [he] at h
          exact absurd h hneg
    · rw [if_neg hc]
      refine ⟨s, [], rfl, rfl, by simp, Nat.le_refl _, hle, fun h => absurd h hc, ?_⟩
      simp only [soundCond, Bool.and_eq_true, decide_eq_true_iff, not_and_or] at hc
      rcases hc with h | h
      · left; omega
      · exact Or.inr (Or.inr (Or.inr ⟨by omega, Or.inr rfl⟩))


theorem soundMillis_ceil (c : Config) (n : Nat) (hHZ : 0 < c.AUDIO_HZ)
    (hfit : n * 1000 + c.AUDIO_HZ ≤ 2 ^ 32) :
    n * 1000 ≤ soundMillis c n * c.AUDIO_HZ ∧
    ∀ m, n * 1000 ≤ m * c.AUDIO_HZ → soundMillis c n ≤ m := by
  have hval : soundMillis c n = (n * 1000 + c.AUDIO_HZ - 1) / c.AUDIO_HZ := by
    unfold soundMillis wrapUInt32
    have h1 : ((n : Int) * 1000 + (c.AUDIO_HZ : Int) - 1) % 2 ^ 32 =
        ((n * 1000 + c.AUDIO_HZ - 1 : Nat) : Int) := by
      have h2 : ((n : Int) * 1000 + (c.AUDIO_HZ : Int) - 1) =
          ((n * 1000 + c.AUDIO_HZ - 1 : Nat) : Int) := by omega
      rw [h2]
      apply Int.emod_eq_of_lt
      · omega
      · omega
    rw [h1, Int.toNat_ofNat]
  rw [hval]
  constructor
  · have hdm := Nat.div_add_mod (n * 1000 + c.AUDIO_HZ - 1) c.AUDIO_HZ
    have hlt := Nat.mod_lt (n * 1000 + c.AUDIO_HZ - 1) hHZ
    rw [Nat.mul_comm] at hdm
    omega
  · intro m hm
    have h1 : (n * 1000 + c.AUDIO_HZ - 1) / c.AUDIO_HZ ≤
        (m * c.AUDIO_HZ + (c.AUDIO_HZ - 1)) / c.AUDIO_HZ :=
      Nat.div_le_div_right (by omega)
    have h2 : (m * c.AUDIO_HZ + (c.AUDIO_HZ - 1)) / c.AUDIO_HZ = m := by
      rw [Nat.add_comm, Nat.add_mul_div_right _ _ hHZ,
        Nat.div_eq_of_lt (by omega), Nat.zero_add]
    omega

/-- C13: with a sample buffer of at least one sample, a positive audio rate
and `AUDIO_BUFFER_SAMPLES * 1000 + AUDIO_HZ` within 32 bits,
`renderSoundEffect` returns for every queue and starting timestamp; the
sample count `n` satisfies `1 ≤ n ≤ AUDIO_BUFFER_SAMPLES`; the audio sink
receives exactly the first `n` samples of the buffer; and the returned delay
`ms` is the least number with `ms * AUDIO_HZ ≥ n * 1000`. -/
theorem renderSoundEffect_samples (c : Config) (q : OutputQueue) (first_timestamp : Nat)
    (hABS : 0 < c.AUDIO_BUFFER_SAMPLES) (hHZ : 0 < c.AUDIO_HZ)
    (hfit : c.AUDIO_BUFFER_SAMPLES * 1000 + c.AUDIO_HZ ≤ 2 ^ 32) :
    ∃ n ms q2,
      renderSoundEffect c q first_timestamp =
        Except.ok (ms, SinkCall.onRenderSound ((List.range n).map q2.pcm_samples) c.AUDIO_HZ,
          q2) ∧
      1 ≤ n ∧ n ≤ c.AUDIO_BUFFER_SAMPLES ∧
      ((List.range n).map q2.pcm_samples).length = n ∧
      n * 1000 ≤ ms * c.AUDIO_HZ ∧ ∀ m, n * 1000 ≤ m * c.AUDIO_HZ → ms ≤ m := by
  have hcond : soundCond c (soundInit q first_timestamp) = true := by
    simp [soundCond, soundInit, hABS]
  obtain ⟨s2, pre, h1, _, _, _, h5, h6, _⟩ :=
    soundLoop_stop c c.AUDIO_BUFFER_SAMPLES (soundInit q first_timestamp)
      (by simp [soundInit]) (by simp [soundInit])
  have hpos : 0 < s2.sample_count := by
    have := h6 hcond
    simp only [soundInit] at this
    omega
  have hceil := soundMillis_ceil c s2.sample_count hHZ
    (by
      have : s2.sample_count * 1000 ≤ c.AUDIO_BUFFER_SAMPLES * 1000 :=
        Nat.mul_le_mul_right _ h5
      omega)
  refine ⟨s2.sample_count, soundMillis c s2.sample_count,
    { q with items := s2.items, pcm_samples := s2.pcm_samples }, ?_, hpos, h5, by simp,
    hceil.1, hceil.2⟩
  unfold renderSoundEffect
  rw [h1]

/-- C13, on the small configuration with an empty queue. -/
theorem renderSoundEffect_samples_witness :
    ((0 : Nat) < demoConfig.AUDIO_BUFFER_SAMPLES ∧ 0 < demoConfig.AUDIO_HZ ∧
      demoConfig.AUDIO_BUFFER_SAMPLES * 1000 + demoConfig.AUDIO_HZ ≤ 2 ^ 32) ∧
    ∃ n ms q2,
      renderSoundEffect demoConfig emptyQueue 0 =
        Except.ok (ms,
          SinkCall.onRenderSound ((List.range n).map q2.pcm_samples) demoConfig.AUDIO_HZ,
          q2) ∧
      1 ≤ n ∧ n ≤ demoConfig.AUDIO_BUFFER_SAMPLES ∧
      ((List.range n).map q2.pcm_samples).length = n ∧
      n * 1000 ≤ ms * demoConfig.AUDIO_HZ ∧
      ∀ m, n * 1000 ≤ m * demoConfig.AUDIO_HZ → ms ≤ m :=
  ⟨⟨by decide, by decide, by decide⟩,
    renderSoundEffect_samples demoConfig emptyQueue 0 (by decide) (by decide) (by decide)⟩

/-- How `renderSoundEffect` ends, as the code has it: the sample count
equals `AUDIO_BUFFER_SAMPLES`, or the item queue is empty, or its front item
is not a speaker timestamp, or the loop condition `clocks_remaining >= 0`
failed right after a timestamp was consumed. The items removed are speaker
timestamps from the front of the queue. -/
theorem renderSoundEffect_stop (c : Config) (q : OutputQueue) (first_timestamp : Nat) :
    ∃ s pre,
      soundLoop c c.AUDIO_BUFFER_SAMPLES (soundInit q first_timestamp) = Except.ok s ∧
      renderSoundEffect c q first_timestamp =
        Except.ok (soundMillis c s.sample_count,
          SinkCall.onRenderSound ((List.range s.sample_count).map s.pcm_samples) c.AUDIO_HZ,
          { q with items := s.items, pcm_samples := s.pcm_samples }) ∧
      q.items = pre ++ s.items ∧
      (∀ it ∈ pre, ∃ ts, it = OutputItem.OUT_SPEAKER_TIMESTAMP ts) ∧
      (s.sample_count = c.AUDIO_BUFFER_SAMPLES ∨ s.items = [] ∨
        (∃ it rest, s.items = it :: rest ∧ ∀ ts, it ≠ OutputItem.OUT_SPEAKER_TIMESTAMP ts) ∨
        (s.clocks_remaining < 0 ∧ pre ≠ [])) := by
  obtain ⟨s2, pre, h1, h2, h3, _, _, _, h7⟩ :=
    soundLoop_stop c c.AUDIO_BUFFER_SAMPLES (soundInit q first_timestamp)
      (by simp [soundInit]) (by simp [soundInit])
  refine ⟨s2, pre, h1, ?_, h2, h3, ?_⟩
  · unfold renderSoundEffect
    rw [h1]
  · rcases h7 with h | h | h | ⟨h, hp | he⟩
    · exact Or.inl h
    · exact Or.inr (Or.inl h)
    · exact Or.inr (Or.inr (Or.inl h))
    · exact Or.inr (Or.inr (Or.inr ⟨h, hp⟩))
    · rw [he] at h
      simp [soundInit] at h

/-- C14: the code at the failing input. At 100 clocks per sample, with
starting timestamp 0 and speaker timestamps 50 and 100 queued,
`renderSoundEffect` emits one sample (the buffer holds 16), consumes the
timestamp 50 and returns, with the timestamp 100 still at the front of the
queue: it stopped although the buffer is not full and a speaker timestamp
is next. -/
theorem renderSoundEffect_stops_early :
    renderSoundEffect demoConfig
        { emptyQueue with items := [OutputItem.OUT_SPEAKER_TIMESTAMP 50,
            OutputItem.OUT_SPEAKER_TIMESTAMP 100] } 0 =
      Except.ok (1, SinkCall.onRenderSound [1] 44100,
        { emptyQueue with items := [OutputItem.OUT_SPEAKER_TIMESTAMP 100],
                          pcm_samples := storeAt (fun _ => 0) 0 1 }) ∧
    (1 : Nat) ≠ demoConfig.AUDIO_BUFFER_SAMPLES := by
  constructor
  · rfl
  · decide

/-! ### Square-wave reconstruction -/

theorem wrapInt32_eq (x : Int) (h1 : -2 ^ 31 ≤ x) (h2 : x < 2 ^ 31) : wrapInt32 x = x := by
  unfold wrapInt32
  rw [Int.emod_eq_of_lt (by omega) (by omega)]
  omega

theorem wrapUInt32_eq (x : Int) (h1 : 0 ≤ x) (h2 : x < 2 ^ 32) :
    (wrapUInt32 x : Int) = x := by
  unfold wrapUInt32
  rw [Int.emod_eq_of_lt h1 h2]
  omega

/-- A run of samples at one level: from a state with a clock balance of at
least `k` and less than `k + 1` sample periods, the loop emits `k + 1`
samples and then looks at the queue. -/
theorem soundLoop_emit (c : Config) (hC : 0 < c.CPU_CLOCKS_PER_SAMPLE)
    (hC31 : c.CPU_CLOCKS_PER_SAMPLE ≤ 2 ^ 31) :
    ∀ (k : Nat) (fuel : Nat) (s : SoundState),
      (k : Int) * (c.CPU_CLOCKS_PER_SAMPLE : Int) ≤ s.clocks_remaining →
      s.clocks_remaining < (k : Int) * (c.CPU_CLOCKS_PER_SAMPLE : Int) + c.CPU_CLOCKS_PER_SAMPLE →
      s.clocks_remaining < 2 ^ 31 →
      s.sample_count + k + 1 ≤ c.AUDIO_BUFFER_SAMPLES →
      ∃ e : SoundState, e.items = s.items ∧ e.previous_timestamp = s.previous_timestamp ∧
        e.next_sample = s.next_sample ∧ e.sample_count = s.sample_count + k + 1 ∧
        e.clocks_remaining =
          s.clocks_remaining - ((k : Int) * (c.CPU_CLOCKS_PER_SAMPLE : Int) +
            c.CPU_CLOCKS_PER_SAMPLE) ∧
        (∀ i, e.pcm_samples i =
          if s.sample_count ≤ i ∧ i < s.sample_count + k + 1 then s.next_sample
          else s.pcm_samples i) ∧
        soundLoop c (fuel + k + 1) s =
          match e.items with
          | OutputItem.OUT_SPEAKER_TIMESTAMP timestamp :: rest =>
            soundLoop c fuel (soundToggle e timestamp rest)
          | _ => Except.ok e := by
  intro k
  induction k with
  | zero =>
    intro fuel s h1 h2 h31 hroom
    simp only [Nat.cast_zero, Int.zero_mul, Int.zero_add, Nat.add_zero] at h1 h2 hroom ⊢
    have hcond : soundCond c s = true := by
      simp only [soundCond, Bool.and_eq_true, decide_eq_true_iff]
      exact ⟨by omega, h1⟩
    have hclk : (soundEmit c s).clocks_remaining =
        s.clocks_remaining - c.CPU_CLOCKS_PER_SAMPLE := by
      show wrapInt32 _ = _
      exact wrapInt32_eq _ (by omega) (by omega)
    refine ⟨soundEmit c s, rfl, rfl, rfl, rfl, hclk, ?_, ?_⟩
    · intro i
      show storeAt s.pcm_samples s.sample_count s.next_sample i = _
      unfold storeAt
      by_cases hi : i = s.sample_count
      · rw [if_pos hi, if_pos (by omega)]
      · rw [if_neg hi, if_neg (by omega)]
    · rw [soundLoop, if_pos hcond]
      simp only []
      rw [if_pos (by rw [hclk]; omega)]
  | succ k ih =>
    intro fuel s h1 h2 h31 hroom
    have hk : ((k + 1 : Nat) : Int) * (c.CPU_CLOCKS_PER_SAMPLE : Int) =
        (k : Int) * (c.CPU_CLOCKS_PER_SAMPLE : Int) + c.CPU_CLOCKS_PER_SAMPLE := by
      push_cast; ring
    rw [hk] at h1 h2 ⊢
    have hkpos : (0 : Int) ≤ (k : Int) * (c.CPU_CLOCKS_PER_SAMPLE : Int) :=
      Int.mul_nonneg (Int.ofNat_nonneg _) (Int.ofNat_nonneg _)
    have hcond : soundCond c s = true := by
      simp only [soundCond, Bool.and_eq_true, decide_eq_true_iff]
      exact ⟨by omega, by omega⟩
    have hclk : (soundEmit c s).clocks_remaining =
        s.clocks_remaining - c.CPU_CLOCKS_PER_SAMPLE := by
      show wrapInt32 _ = _
      exact wrapInt32_eq _ (by omega) (by omega)
    have hcount : (soundEmit c s).sample_count = s.sample_count + 1 := rfl
    obtain ⟨e, he1, he2, he3, he4, he5, he6, he7⟩ :=
      ih fuel (soundEmit c s) (by rw [hclk]; omega) (by rw [hclk]; omega)
        (by rw [hclk]; omega) (by rw [hcount]; omega)
    refine ⟨e, he1, he2, he3, by rw [he4, hcount]; omega, by rw [he5, hclk]; omega, ?_, ?_⟩
    · intro i
      rw [he6 i, hcount]
      show (if _ then s.next_sample else storeAt s.pcm_samples s.sample_count s.next_sample i) = _
      unfold storeAt
      split_ifs <;> first | rfl | (exfalso; omega)
    · rw [show fuel + (k + 1) + 1 = (fuel + k + 1) + 1 from by omega, soundLoop,
        if_pos hcond]
      simp only []
      rw [if_neg (by rw [hclk]; omega)]
      exact he7


theorem level_toggle (j : Nat) : (if level j = 0 then (1 : Int) else 0) = level (j + 1) := by
  unfold level
  by_cases h : j % 2 = 0
  · have h2 : ¬ (j + 1) % 2 = 0 := by omega
    simp [h, h2]
  · have h2 : (j + 1) % 2 = 0 := by omega
    simp [h, h2]

theorem lastTimestamp_ge (C : Nat) :
    ∀ (ts : List Nat) (prev : Nat), List.Chain (fun a b => a + C ≤ b) prev ts →
      prev ≤ lastTimestamp prev ts := by
  intro ts
  induction ts with
  | nil => intro prev _; exact Nat.le_refl _
  | cons t ts ih =>
    intro prev h
    rw [List.chain_cons] at h
    have := ih t h.2
    show prev ≤ lastTimestamp t ts
    omega

/-- No toggle takes effect at or before an index that the interval begun at
`prev` still covers. -/
theorem togglesBefore_zero (C t0 : Nat) :
    ∀ (ts : List Nat) (prev i : Nat), List.Chain (fun a b => a + C ≤ b) prev ts →
      i ≤ (prev - t0) / C → togglesBefore C t0 (prev :: ts) i = 0 := by
  intro ts
  induction ts with
  | nil =>
    intro prev i _ hi
    simp only [togglesBefore, List.countP_cons, List.countP_nil, Nat.zero_add]
    rw [if_neg (by simp; omega)]
  | cons t ts ih =>
    intro prev i h hi
    rw [List.chain_cons] at h
    have hmono : (prev - t0) / C ≤ (t - t0) / C := Nat.div_le_div_right (by omega)
    have h2 := ih t i h.2 (by omega)
    unfold togglesBefore at h2 ⊢
    rw [List.countP_cons, h2, if_neg (by simp; omega)]

theorem togglesBefore_succ (C t0 : Nat) (ts : List Nat) (prev i : Nat)
    (hi : (prev - t0) / C < i) :
    togglesBefore C t0 (prev :: ts) i = togglesBefore C t0 ts i + 1 := by
  unfold togglesBefore
  rw [List.countP_cons, if_pos (by simp; omega)]


theorem sound_arith (C N n cl P : Nat) (hC : 0 < C) (hwrap : N * C ≤ 2 ^ 31)
    (hinv : cl + n * C = P) (hroom : P / C + 1 < N) :
    P / C = cl / C + n ∧ cl < 2 ^ 31 ∧ C ≤ 2 ^ 31 ∧
    (cl / C) * C ≤ cl ∧ cl < (cl / C) * C + C := by
  have hdm := Nat.div_add_mod cl C
  have hml := Nat.mod_lt cl hC
  have hquot : P / C = cl / C + n := by
    have hP : P = cl % C + (cl / C + n) * C := by
      rw [Nat.add_mul, Nat.mul_comm (cl / C)]
      omega
    rw [hP, Nat.add_mul_div_right _ _ hC, Nat.div_eq_of_lt hml, Nat.zero_add]
  have hlt : P < N * C :=
    (Nat.div_lt_iff_lt_mul hC).mp (by
      rw [hquot] at hroom ⊢
      generalize cl / C = k at *
      omega)
  rw [Nat.mul_comm (cl / C) C]
  rw [hquot] at hroom
  generalize cl / C = k at *
  generalize cl % C = r at *
  have hN : 0 < N := by omega
  have hCle : C ≤ N * C := Nat.le_mul_of_pos_left C hN
  exact ⟨hquot, by omega, by omega, by omega, by omega⟩

theorem inv_nat (clk : Int) (n C prev t0 cl : Nat) (hcl : clk = (cl : Int)) (ht0 : t0 ≤ prev)
    (hinv : clk + (n : Int) * (C : Int) = (prev : Int) - (t0 : Int)) :
    cl + n * C = prev - t0 := by
  have h : ((cl + n * C : Nat) : Int) = ((prev - t0 : Nat) : Int) := by
    rw [Nat.cast_sub ht0]
    push_cast
    rw [← hcl]
    exact hinv
  exact_mod_cast h

/-- One interval of the square wave: from a state whose clock balance
accounts for the time since `t0`, the loop emits samples at the current
level up to index `(previous_timestamp - t0) / C`, and then looks at the
queue with a negative balance of less than one sample period. -/
theorem soundLoop_phase (c : Config) (hC : 0 < c.CPU_CLOCKS_PER_SAMPLE)
    (hwrap : c.AUDIO_BUFFER_SAMPLES * c.CPU_CLOCKS_PER_SAMPLE ≤ 2 ^ 31)
    (t0 : Nat) (s : SoundState) (fuel : Nat)
    (ht0 : t0 ≤ s.previous_timestamp) (hclk : 0 ≤ s.clocks_remaining)
    (hinv : s.clocks_remaining + (s.sample_count : Int) * (c.CPU_CLOCKS_PER_SAMPLE : Int) =
      (s.previous_timestamp : Int) - (t0 : Int))
    (hroom : (s.previous_timestamp - t0) / c.CPU_CLOCKS_PER_SAMPLE + 1 <
      c.AUDIO_BUFFER_SAMPLES)
    (hfuel : c.AUDIO_BUFFER_SAMPLES ≤ s.sample_count + fuel) :
    ∃ (e : SoundState) (fuel2 : Nat), e.items = s.items ∧
      e.previous_timestamp = s.previous_timestamp ∧ e.next_sample = s.next_sample ∧
      e.sample_count = (s.previous_timestamp - t0) / c.CPU_CLOCKS_PER_SAMPLE + 1 ∧
      s.sample_count < e.sample_count ∧
      -(c.CPU_CLOCKS_PER_SAMPLE : Int) ≤ e.clocks_remaining ∧ e.clocks_remaining < 0 ∧
      e.clocks_remaining + (e.sample_count : Int) * (c.CPU_CLOCKS_PER_SAMPLE : Int) =
        (s.previous_timestamp : Int) - (t0 : Int) ∧
      (∀ i, e.pcm_samples i =
        if s.sample_count ≤ i ∧ i < e.sample_count then s.next_sample else s.pcm_samples i) ∧
      c.AUDIO_BUFFER_SAMPLES ≤ e.sample_count + fuel2 ∧
      soundLoop c fuel s =
        match e.items with
        | OutputItem.OUT_SPEAKER_TIMESTAMP timestamp :: rest =>
          soundLoop c fuel2 (soundToggle e timestamp rest)
        | _ => Except.ok e := by
  obtain ⟨cl, hcl⟩ := Int.eq_ofNat_of_zero_le hclk
  have hinvN := inv_nat _ _ _ _ _ cl hcl ht0 hinv
  obtain ⟨hquot, hcl31, hC31, hk1, hk2⟩ :=
    sound_arith _ _ _ cl _ hC hwrap hinvN hroom
  generalize cl / c.CPU_CLOCKS_PER_SAMPLE = k at hquot hk1 hk2
  have hk1i : (k : Int) * (c.CPU_CLOCKS_PER_SAMPLE : Int) ≤ s.clocks_remaining := by
    rw [hcl]; exact_mod_cast hk1
  have hk2i : s.clocks_remaining <
      (k : Int) * (c.CPU_CLOCKS_PER_SAMPLE : Int) + c.CPU_CLOCKS_PER_SAMPLE := by
    rw [hcl]; exact_mod_cast hk2
  rw [hquot] at hroom
  obtain ⟨fuel2, hf2⟩ : ∃ f, fuel = f + k + 1 := ⟨fuel - (k + 1), by omega⟩
  obtain ⟨e, he1, he2, he3, he4, he5, he6, he7⟩ :=
    soundLoop_emit c hC hC31 k fuel2 s hk1i hk2i (by rw [hcl]; exact_mod_cast hcl31)
      (by omega)
  have hcnt : ((s.sample_count + k + 1 : Nat) : Int) * (c.CPU_CLOCKS_PER_SAMPLE : Int) =
      (s.sample_count : Int) * (c.CPU_CLOCKS_PER_SAMPLE : Int) +
        (k : Int) * (c.CPU_CLOCKS_PER_SAMPLE : Int) + (c.CPU_CLOCKS_PER_SAMPLE : Int) := by
    push_cast; ring
  refine ⟨e, fuel2, he1, he2, he3, by rw [he4, hquot]; omega, by omega, by omega, by omega,
    ?_, ?_, by omega, ?_⟩
  · rw [he4, hcnt, he5]
    omega
  · intro i
    rw [he6 i, he4]
  · rw [hf2]
    exact he7

/-- The loop of `renderSoundEffect` on timestamps that are at least one
sample period apart: from a state reached right after a toggle (or the
initial state), it consumes them all and writes the square wave. -/
theorem soundLoop_square (c : Config) (hC : 0 < c.CPU_CLOCKS_PER_SAMPLE)
    (hwrap : c.AUDIO_BUFFER_SAMPLES * c.CPU_CLOCKS_PER_SAMPLE ≤ 2 ^ 31)
    (t0 : Nat) (rest : List OutputItem)
    (hrest : ∀ t tl, rest ≠ OutputItem.OUT_SPEAKER_TIMESTAMP t :: tl) :
    ∀ (ts : List Nat) (s : SoundState) (fuel j : Nat),
      s.items = ts.map OutputItem.OUT_SPEAKER_TIMESTAMP ++ rest →
      t0 ≤ s.previous_timestamp →
      0 ≤ s.clocks_remaining →
      s.clocks_remaining + (s.sample_count : Int) * (c.CPU_CLOCKS_PER_SAMPLE : Int) =
        (s.previous_timestamp : Int) - (t0 : Int) →
      s.next_sample = level j →
      List.Chain (fun a b => a + c.CPU_CLOCKS_PER_SAMPLE ≤ b) s.previous_timestamp ts →
      lastTimestamp s.previous_timestamp ts < 2 ^ 32 →
      (lastTimestamp s.previous_timestamp ts - t0) / c.CPU_CLOCKS_PER_SAMPLE + 1 <
        c.AUDIO_BUFFER_SAMPLES →
      c.AUDIO_BUFFER_SAMPLES ≤ s.sample_count + fuel →
      ∃ s2, soundLoop c fuel s = Except.ok s2 ∧ s2.items = rest ∧
        s2.sample_count =
          (lastTimestamp s.previous_timestamp ts - t0) / c.CPU_CLOCKS_PER_SAMPLE + 1 ∧
        (∀ i, i < s.sample_count → s2.pcm_samples i = s.pcm_samples i) ∧
        (∀ i, s.sample_count ≤ i → i < s2.sample_count →
          s2.pcm_samples i =
            level (j + togglesBefore c.CPU_CLOCKS_PER_SAMPLE t0 (s.previous_timestamp :: ts) i)) := by
  intro ts
  induction ts with
  | nil =>
    intro s fuel j hitems ht0 hclk hinv hlvl _ h32 hroom hfuel
    simp only [lastTimestamp, List.map_nil, List.nil_append] at hitems h32 hroom ⊢
    obtain ⟨e, fuel2, he1, _, _, he4, he5, _, _, _, he9, _, he11⟩ :=
      soundLoop_phase c hC hwrap t0 s fuel ht0 hclk hinv hroom hfuel
    refine ⟨e, ?_, by rw [he1, hitems], he4, ?_, ?_⟩
    · rw [he11, he1, hitems]
      split
      · exact absurd rfl (hrest _ _)
      · rfl
    · intro i hi
      rw [he9 i, if_neg (by omega)]
    · intro i hi1 hi2
      rw [he9 i, if_pos ⟨hi1, hi2⟩, hlvl,
        togglesBefore_zero _ t0 [] s.previous_timestamp i List.Chain.nil (by omega)]
      rfl
  | cons t ts ih =>
    intro s fuel j hitems ht0 hclk hinv hlvl hchain h32 hroom hfuel
    rw [List.chain_cons] at hchain
    obtain ⟨hgap, hchain2⟩ := hchain
    have hlast : lastTimestamp s.previous_timestamp (t :: ts) = lastTimestamp t ts := rfl
    rw [hlast] at h32 hroom ⊢
    have htl := lastTimestamp_ge c.CPU_CLOCKS_PER_SAMPLE ts t hchain2
    have hmono : (s.previous_timestamp - t0) / c.CPU_CLOCKS_PER_SAMPLE ≤
        (lastTimestamp t ts - t0) / c.CPU_CLOCKS_PER_SAMPLE :=
      Nat.div_le_div_right (by omega)
    have hlt : lastTimestamp t ts - t0 <
        c.AUDIO_BUFFER_SAMPLES * c.CPU_CLOCKS_PER_SAMPLE :=
      (Nat.div_lt_iff_lt_mul hC).mp (by omega)
    obtain ⟨e, fuel2, he1, he2, he3, he4, he5, he6, he7, he8, he9, he10, he11⟩ :=
      soundLoop_phase c hC hwrap t0 s fuel ht0 hclk hinv (by omega) hfuel
    have hnn : (0 : Int) ≤ (e.sample_count : Int) * (c.CPU_CLOCKS_PER_SAMPLE : Int) :=
      Int.mul_nonneg (Int.ofNat_nonneg _) (Int.ofNat_nonneg _)
    -- the state after the toggle
    have hgapv : (wrapUInt32 ((t : Int) - (e.previous_timestamp : Int)) : Int) =
        (t : Int) - (s.previous_timestamp : Int) := by
      rw [he2]
      exact wrapUInt32_eq _ (by omega) (by omega)
    have hclk2 :
        (soundToggle e t (ts.map OutputItem.OUT_SPEAKER_TIMESTAMP ++ rest)).clocks_remaining =
          e.clocks_remaining + ((t : Int) - (s.previous_timestamp : Int)) := by
      show wrapInt32 _ = _
      rw [hgapv]
      exact wrapInt32_eq _ (by omega) (by omega)
    obtain ⟨s2, h1, h2, h3, h4, h5⟩ :=
      ih (soundToggle e t (ts.map OutputItem.OUT_SPEAKER_TIMESTAMP ++ rest)) fuel2 (j + 1)
        rfl (by show t0 ≤ t; omega) (by rw [hclk2]; omega)
        (by
          rw [hclk2]
          show _ + (e.sample_count : Int) * _ = (t : Int) - (t0 : Int)
          omega)
        (by
          show (if e.next_sample = 0 then (1 : Int) else 0) = _
          rw [he3, hlvl]
          exact level_toggle j)
        hchain2 h32 hroom he10
    have hcnt2 :
        (soundToggle e t (ts.map OutputItem.OUT_SPEAKER_TIMESTAMP ++ rest)).sample_count =
          e.sample_count := rfl
    refine ⟨s2, ?_, h2, h3, ?_, ?_⟩
    · rw [he11, he1, hitems]
      exact h1
    · intro i hi
      rw [h4 i (by rw [hcnt2]; omega)]
      show e.pcm_samples i = _
      rw [he9 i, if_neg (by omega)]
    · intro i hi1 hi2
      by_cases hi : i < e.sample_count
      · rw [h4 i (by rw [hcnt2]; exact hi)]
        show e.pcm_samples i = _
        rw [he9 i, if_pos ⟨hi1, hi⟩, hlvl,
          togglesBefore_zero _ t0 (t :: ts) s.previous_timestamp i
            (List.Chain.cons hgap hchain2) (by omega)]
        rfl
      · rw [h5 i (by rw [hcnt2]; omega) hi2]
        show level (j + 1 + togglesBefore _ t0 (t :: ts) i) = _
        rw [togglesBefore_succ _ t0 (t :: ts) s.previous_timestamp i (by omega)]
        congr 1
        omega


/-! ### Where the level flips -/

theorem quot_step (C t0 p t : Nat) (hC : 0 < C) (ht0 : t0 ≤ p) (hgap : p + C ≤ t) :
    (p - t0) / C + 1 ≤ (t - t0) / C := by
  have h : (p - t0 + C) / C ≤ (t - t0) / C := Nat.div_le_div_right (by omega)
  rw [Nat.add_div_right _ hC] at h
  exact h

theorem countP_quot_eq_zero (C t0 m : Nat) (hC : 0 < C) :
    ∀ (ts : List Nat) (p : Nat), List.Chain (fun a b => a + C ≤ b) p ts → t0 ≤ p →
      m < (p - t0) / C → (p :: ts).countP (fun t => decide ((t - t0) / C = m)) = 0 := by
  intro ts
  induction ts with
  | nil =>
    intro p _ _ hm
    rw [List.countP_cons, List.countP_nil, if_neg (by simp; omega)]
  | cons t ts ih =>
    intro p h ht0 hm
    rw [List.chain_cons] at h
    have hq := quot_step C t0 p t hC ht0 h.1
    rw [List.countP_cons, ih t h.2 (by omega) (by omega), if_neg (by simp; omega)]

theorem countP_quot_le_one (C t0 m : Nat) (hC : 0 < C) :
    ∀ (ts : List Nat) (p : Nat), List.Chain (fun a b => a + C ≤ b) p ts → t0 ≤ p →
      (p :: ts).countP (fun t => decide ((t - t0) / C = m)) ≤ 1 := by
  intro ts
  induction ts with
  | nil =>
    intro p _ _
    rw [List.countP_cons, List.countP_nil]
    split <;> omega
  | cons t ts ih =>
    intro p h ht0
    rw [List.chain_cons] at h
    have hq := quot_step C t0 p t hC ht0 h.1
    rw [List.countP_cons]
    by_cases hp : (p - t0) / C = m
    · rw [countP_quot_eq_zero C t0 m hC ts t h.2 (by omega) (by omega)]
      split <;> omega
    · rw [if_neg (by simp; exact hp)]
      exact ih t h.2 (by omega)

theorem togglesBefore_step (C t0 : Nat) (l : List Nat) (m : Nat) :
    togglesBefore C t0 l (m + 1) =
      togglesBefore C t0 l m + l.countP (fun t => decide ((t - t0) / C = m)) := by
  unfold togglesBefore
  induction l with
  | nil => rfl
  | cons a l ih =>
    rw [List.countP_cons, List.countP_cons, List.countP_cons, ih]
    by_cases h1 : (a - t0) / C < m
    · rw [if_pos (by simp; omega), if_pos (by simp; exact h1), if_neg (by simp; omega)]
      omega
    · by_cases h2 : (a - t0) / C = m
      · rw [if_pos (by simp; omega), if_neg (by simp; omega), if_pos (by simp; exact h2)]
        omega
      · rw [if_neg (by simp; omega), if_neg (by simp; omega), if_neg (by simp; exact h2)]
        omega

theorem level_ne_succ (a : Nat) : level (a + 1) ≠ level a := by
  unfold level
  by_cases h : a % 2 = 0
  · have h2 : ¬ (a + 1) % 2 = 0 := by omega
    simp [h, h2]
  · have h2 : (a + 1) % 2 = 0 := by omega
    simp [h, h2]

/-- On timestamps at least one sample period apart, the level at index `i`
differs from the level at `i - 1` exactly when some timestamp `t` has
`(t - t0) / C + 1 = i`. -/
theorem level_flip_iff (C t0 : Nat) (hC : 0 < C) (ts : List Nat)
    (hchain : List.Chain (fun a b => a + C ≤ b) t0 ts) (i : Nat) (hi : 0 < i) :
    level (togglesBefore C t0 (t0 :: ts) i) ≠ level (togglesBefore C t0 (t0 :: ts) (i - 1)) ↔
      ∃ t ∈ t0 :: ts, (t - t0) / C + 1 = i := by
  obtain ⟨m, rfl⟩ : ∃ m, i = m + 1 := ⟨i - 1, by omega⟩
  rw [Nat.add_sub_cancel, togglesBefore_step]
  have hle := countP_quot_le_one C t0 m hC ts t0 hchain (Nat.le_refl _)
  have hpos : 0 < (t0 :: ts).countP (fun t => decide ((t - t0) / C = m)) ↔
      ∃ t ∈ t0 :: ts, (fun t => decide ((t - t0) / C = m)) t = true := List.countP_pos_iff
  constructor
  · intro hne
    have h1 : 0 < (t0 :: ts).countP (fun t => decide ((t - t0) / C = m)) := by
      rcases Nat.eq_zero_or_pos ((t0 :: ts).countP (fun t => decide ((t - t0) / C = m)))
        with h0 | h0
      · rw [h0] at hne; exact absurd rfl hne
      · exact h0
    obtain ⟨t, ht, hp⟩ := hpos.mp h1
    exact ⟨t, ht, by simpa using hp⟩
  · rintro ⟨t, ht, hp⟩
    have h1 : 0 < (t0 :: ts).countP (fun t => decide ((t - t0) / C = m)) :=
      hpos.mpr ⟨t, ht, by simp; omega⟩
    have h2 : (t0 :: ts).countP (fun t => decide ((t - t0) / C = m)) = 1 := by omega
    rw [h2]
    exact level_ne_succ _


theorem level_values (a : Nat) : level a = 0 ∨ level a = 1 := by
  unfold level
  split
  · exact Or.inr rfl
  · exact Or.inl rfl

/-- C15: square-wave reconstruction. Let `C = CPU_CLOCKS_PER_SAMPLE > 0`,
let `t0` be the starting timestamp and `ts = [t1, ..., tk]` the speaker
timestamps at the front of the queue, each at least `C` after the one
before, followed by `rest` which does not begin with a speaker timestamp,
with `n = (tk - t0) / C + 1 < AUDIO_BUFFER_SAMPLES` (and the buffer short
enough for clock counts to fit 32 bits). Then `renderSoundEffect` consumes
all of `ts`, hands exactly `n` samples to the sink, sample 0 is 1, every
sample is 0 or 1, sample `i` is high exactly when an even number of the
indices `(t - t0) / C + 1`, `t` in `t0, t1, ..., tk`, are at most `i`, and
the level changes between `i - 1` and `i` exactly when `i` is one of those
indices. -/
theorem renderSoundEffect_square_wave (c : Config) (q : OutputQueue) (t0 : Nat)
    (ts : List Nat) (rest : List OutputItem)
    (hC : 0 < c.CPU_CLOCKS_PER_SAMPLE)
    (hwrap : c.AUDIO_BUFFER_SAMPLES * c.CPU_CLOCKS_PER_SAMPLE ≤ 2 ^ 31)
    (hitems : q.items = ts.map OutputItem.OUT_SPEAKER_TIMESTAMP ++ rest)
    (hrest : ∀ t tl, rest ≠ OutputItem.OUT_SPEAKER_TIMESTAMP t :: tl)
    (hchain : List.Chain (fun a b => a + c.CPU_CLOCKS_PER_SAMPLE ≤ b) t0 ts)
    (h32 : lastTimestamp t0 ts < 2 ^ 32)
    (hroom : (lastTimestamp t0 ts - t0) / c.CPU_CLOCKS_PER_SAMPLE + 1 <
      c.AUDIO_BUFFER_SAMPLES) :
    ∃ ms q2,
      renderSoundEffect c q t0 =
        Except.ok (ms,
          SinkCall.onRenderSound
            ((List.range ((lastTimestamp t0 ts - t0) / c.CPU_CLOCKS_PER_SAMPLE + 1)).map
              q2.pcm_samples) c.AUDIO_HZ,
          q2) ∧
      q2.items = rest ∧ q2.pcm_samples 0 = 1 ∧
      (∀ i, i < (lastTimestamp t0 ts - t0) / c.CPU_CLOCKS_PER_SAMPLE + 1 →
        (q2.pcm_samples i = 0 ∨ q2.pcm_samples i = 1) ∧
        q2.pcm_samples i = level (togglesBefore c.CPU_CLOCKS_PER_SAMPLE t0 (t0 :: ts) i)) ∧
      (∀ i, 0 < i → i < (lastTimestamp t0 ts - t0) / c.CPU_CLOCKS_PER_SAMPLE + 1 →
        (q2.pcm_samples i ≠ q2.pcm_samples (i - 1) ↔
          ∃ t ∈ t0 :: ts, (t - t0) / c.CPU_CLOCKS_PER_SAMPLE + 1 = i)) := by
  obtain ⟨s2, h1, h2, h3, _, h5⟩ :=
    soundLoop_square c hC hwrap t0 rest hrest ts (soundInit q t0) c.AUDIO_BUFFER_SAMPLES 0
      hitems (Nat.le_refl _) (Int.le_refl _) (by simp [soundInit]) rfl hchain h32 hroom
      (by simp [soundInit])
  have hpcm : ∀ i, i < (lastTimestamp t0 ts - t0) / c.CPU_CLOCKS_PER_SAMPLE + 1 →
      s2.pcm_samples i = level (togglesBefore c.CPU_CLOCKS_PER_SAMPLE t0 (t0 :: ts) i) := by
    intro i hi
    have := h5 i (Nat.zero_le _) (by rw [h3]; exact hi)
    rw [Nat.zero_add] at this
    exact this
  refine ⟨soundMillis c s2.sample_count,
    { q with items := s2.items, pcm_samples := s2.pcm_samples }, ?_, h2, ?_, ?_, ?_⟩
  · have h3b : s2.sample_count =
        (lastTimestamp t0 ts - t0) / c.CPU_CLOCKS_PER_SAMPLE + 1 := h3
    unfold renderSoundEffect
    rw [h1]
    simp only [h3b]
  · show s2.pcm_samples 0 = 1
    rw [hpcm 0 (Nat.succ_pos _)]
    have h0 : togglesBefore c.CPU_CLOCKS_PER_SAMPLE t0 (t0 :: ts) 0 = 0 := by
      unfold togglesBefore
      rw [List.countP_eq_zero]
      intro a _
      simp
    rw [h0]
    rfl
  · intro i hi
    show (s2.pcm_samples i = 0 ∨ s2.pcm_samples i = 1) ∧ s2.pcm_samples i = _
    rw [hpcm i hi]
    exact ⟨level_values _, rfl⟩
  · intro i hi0 hi
    show s2.pcm_samples i ≠ s2.pcm_samples (i - 1) ↔ _
    rw [hpcm i hi, hpcm (i - 1) (by omega)]
    exact level_flip_iff _ t0 hC ts hchain i hi0

/-- C15, for the clock offsets 0, 100 and 300 at 100 clocks per sample: four
samples, high, low, high, high. -/
theorem renderSoundEffect_square_wave_witness :
    ((0 : Nat) < demoConfig.CPU_CLOCKS_PER_SAMPLE ∧
      demoConfig.AUDIO_BUFFER_SAMPLES * demoConfig.CPU_CLOCKS_PER_SAMPLE ≤ 2 ^ 31 ∧
      List.Chain (fun a b => a + demoConfig.CPU_CLOCKS_PER_SAMPLE ≤ b) 0 [100, 300] ∧
      lastTimestamp 0 [100, 300] < 2 ^ 32 ∧
      (lastTimestamp 0 [100, 300] - 0) / demoConfig.CPU_CLOCKS_PER_SAMPLE + 1 <
        demoConfig.AUDIO_BUFFER_SAMPLES) ∧
    (∃ ms q2,
      renderSoundEffect demoConfig
          { emptyQueue with items := [OutputItem.OUT_SPEAKER_TIMESTAMP 100,
              OutputItem.OUT_SPEAKER_TIMESTAMP 300] } 0 =
        Except.ok (ms,
          SinkCall.onRenderSound ((List.range 4).map q2.pcm_samples) demoConfig.AUDIO_HZ,
          q2) ∧
      q2.items = [] ∧ q2.pcm_samples 0 = 1 ∧
      (∀ i, i < 4 →
        (q2.pcm_samples i = 0 ∨ q2.pcm_samples i = 1) ∧
        q2.pcm_samples i = level (togglesBefore 100 0 [0, 100, 300] i)) ∧
      (∀ i, 0 < i → i < 4 →
        (q2.pcm_samples i ≠ q2.pcm_samples (i - 1) ↔
          ∃ t ∈ [0, 100, 300], (t - 0) / 100 + 1 = i))) ∧
    renderSoundEffect demoConfig
        { emptyQueue with items := [OutputItem.OUT_SPEAKER_TIMESTAMP 100,
            OutputItem.OUT_SPEAKER_TIMESTAMP 300] } 0 =
      Except.ok (1, SinkCall.onRenderSound [1, 0, 1, 1] 44100,
        { emptyQueue with
          pcm_samples := storeAt (storeAt (storeAt (storeAt (fun _ => 0) 0 1) 1 0) 2 1) 3 1 }) :=
  ⟨⟨by decide, by decide,
      List.Chain.cons (by decide) (List.Chain.cons (by decide) List.Chain.nil),
      by decide, by decide⟩,
    renderSoundEffect_square_wave demoConfig
      { emptyQueue with items := [OutputItem.OUT_SPEAKER_TIMESTAMP 100,
          OutputItem.OUT_SPEAKER_TIMESTAMP 300] } 0 [100, 300] []
      (by decide) (by decide) rfl (fun _ _ h => List.noConfusion h)
      (List.Chain.cons (by decide) (List.Chain.cons (by decide) List.Chain.nil))
      (by decide) (by decide),
    by rfl⟩

end OutputQueue

/-! ## Theorems: memory access -/

namespace SBTHardware

/-- C16: address translation stays inside the arena. For a 16-bit segment
`s` and a 16-bit offset `o` the linear address is below `MEM_SIZE`; it is
`s * 16 + o` when `s ≤ MAX_SEGMENT` and `MAX_SEGMENT * 16 + o` when
`s > MAX_SEGMENT`; and the 64 KiB window from the translated base ends
inside `mem`. -/
theorem translate_in_arena (s o : Nat) (hs : s < 2 ^ 16) (ho : o < 2 ^ 16) :
    linearAddress s o < MEM_SIZE ∧
    (s ≤ MAX_SEGMENT → linearAddress s o = s * 16 + o) ∧
    (MAX_SEGMENT < s → linearAddress s o = MAX_SEGMENT * 16 + o) ∧
    linearAddress s 0 + 0x10000 ≤ MEM_SIZE := by
  have hmax : MAX_SEGMENT = 12288 := by decide
  have hmem : MEM_SIZE = 262144 := by decide
  simp only [linearAddress, memSeg, Nat.shiftLeft_eq, hmax, hmem]
  omega

/-- C16, at the CGA segment `0xB800` with the last offset. -/
theorem translate_in_arena_witness :
    ((0xB800 : Nat) < 2 ^ 16 ∧ (0xFFFF : Nat) < 2 ^ 16) ∧
    linearAddress 0xB800 0xFFFF < MEM_SIZE ∧
    (MAX_SEGMENT < 0xB800 → linearAddress 0xB800 0xFFFF = MAX_SEGMENT * 16 + 0xFFFF) :=
  ⟨⟨by decide, by decide⟩,
    (translate_in_arena 0xB800 0xFFFF (by decide) (by decide)).1,
    (translate_in_arena 0xB800 0xFFFF (by decide) (by decide)).2.2.1⟩

end SBTHardware

namespace SBTSegmentCache

theorem or_shift8 (b0 b1 : Nat) (h0 : b0 < 2 ^ 8) : b0 ||| (b1 <<< 8) = b0 + 256 * b1 := by
  rw [Nat.shiftLeft_eq, Nat.or_comm, Nat.mul_comm b1, ← Nat.mul_add_lt_is_or h0 b1]
  omega

/-- C17: the 16-bit helpers are little-endian and inverse to each other.
`write16` stores `x % 256` at `p[0]` and `x / 256` at `p[1]`, and `read16`
then returns `x`; `read16` returns `p[0] + 256 * p[1]`, and writing that
value back leaves both bytes, and all of memory, unchanged. -/
theorem read16_write16 (mem : Nat → Nat) (p x : Nat) (hx : x < 2 ^ 16)
    (h0 : mem p < 2 ^ 8) (h1 : mem (p + 1) < 2 ^ 8) :
    (write16 mem p x p = x % 256 ∧ write16 mem p x (p + 1) = x / 256 ∧
      read16 (write16 mem p x) p = x) ∧
    (read16 mem p = mem p + 256 * mem (p + 1) ∧
      write16 mem p (read16 mem p) p = mem p ∧
      write16 mem p (read16 mem p) (p + 1) = mem (p + 1) ∧
      write16 mem p (read16 mem p) = mem) := by
  have hw0 : ∀ y, write16 mem p y p = y % 256 := by
    intro y
    simp [write16, storeAt]
  have hw1 : ∀ y, write16 mem p y (p + 1) = (y / 256) % 256 := by
    intro y
    simp [write16, storeAt, Nat.shiftRight_eq_div_pow]
  have hr : ∀ m : Nat → Nat, m p < 2 ^ 8 → m (p + 1) < 2 ^ 8 →
      read16 m p = m p + 256 * m (p + 1) := by
    intro m hm0 hm1
    unfold read16
    rw [or_shift8 _ _ hm0]
    omega
  have hrd := hr mem h0 h1
  refine ⟨⟨hw0 x, ?_, ?_⟩, hrd, ?_, ?_, ?_⟩
  · rw [hw1]; omega
  · rw [hr _ (by rw [hw0]; omega) (by rw [hw1]; omega), hw0, hw1]
    omega
  · rw [hw0, hrd]; omega
  · rw [hw1, hrd]; omega
  · funext j
    by_cases hj1 : j = p + 1
    · rw [hj1, hw1, hrd]; omega
    · by_cases hj0 : j = p
      · rw [hj0, hw0, hrd]; omega
      · simp [write16, storeAt, hj1, hj0]

/-- C17, writing `0xBEEF` at index 4 of a memory of bytes `0x12`. -/
theorem read16_write16_witness :
    ((0xBEEF : Nat) < 2 ^ 16 ∧ (fun _ : Nat => 0x12) 4 < 2 ^ 8 ∧
      (fun _ : Nat => 0x12) (4 + 1) < 2 ^ 8) ∧
    (write16 (fun _ => 0x12) 4 0xBEEF 4 = 0xBEEF % 256 ∧
      write16 (fun _ => 0x12) 4 0xBEEF (4 + 1) = 0xBEEF / 256 ∧
      read16 (write16 (fun _ => 0x12) 4 0xBEEF) 4 = 0xBEEF) :=
  ⟨⟨by decide, by decide, by decide⟩,
    (read16_write16 (fun _ => 0x12) 4 0xBEEF (by decide) (by decide) (by decide)).1⟩

end SBTSegmentCache

/-! ## Theorems: flags of a 16-bit addition -/

namespace SBTRegs

theorem and_two_pow_ne_zero (n k : Nat) : (n &&& 2 ^ k ≠ 0) ↔ n.testBit k = true := by
  rw [Nat.and_two_pow]
  cases h : n.testBit k <;> simp

theorem testBit_iff (n k : Nat) : n.testBit k = true ↔ n / 2 ^ k % 2 = 1 := by
  rw [Nat.testBit_to_div_mod]
  simp

/-- The Overflow test on a natural number `n` that stands for the bits of
`sresult` (the number itself, or its complement when `sresult` is negative). -/
theorem overflow_bits (n : Nat) (hn : n < 2 ^ 16) :
    (((n >>> 1) ^^^ n) &&& 0x8000 ≠ 0) ↔ 2 ^ 15 ≤ n := by
  rw [show (0x8000 : Nat) = 2 ^ 15 from rfl, and_two_pow_ne_zero, Nat.testBit_xor,
    Nat.testBit_shiftRight]
  have h16 : n.testBit (1 + 15) = false := by
    rw [Nat.testBit_to_div_mod]
    simp
    omega
  rw [h16]
  simp only [Bool.false_xor]
  rw [testBit_iff]
  omega

theorem getOF_ofNat (r : SBTRegs) (n : Nat) (h : r.sresult = Int.ofNat n) :
    getOF r = decide (((n >>> 1) ^^^ n) &&& 0x8000 ≠ 0) := by
  unfold getOF
  rw [h]
  have e : Int.land (Int.xor (Int.ofNat n >>> 1) (Int.ofNat n)) 0x8000 =
      Int.ofNat (((n >>> 1) ^^^ n) &&& 0x8000) := rfl
  rw [e]
  simp

theorem getOF_negSucc (r : SBTRegs) (n : Nat) (h : r.sresult = Int.negSucc n) :
    getOF r = decide (((n >>> 1) ^^^ n) &&& 0x8000 ≠ 0) := by
  unfold getOF
  rw [h]
  have e : Int.land (Int.xor (Int.negSucc n >>> 1) (Int.negSucc n)) 0x8000 =
      Int.ofNat (((n >>> 1) ^^^ n) &&& 0x8000) := rfl
  rw [e]
  simp

/-- C19: for 16-bit operands `a` and `b`, when the result pair holds
`uresult = a + b` and `sresult = sext(a) + sext(b)`, the four predicates are
the 8086 flags of the 16-bit addition: Zero iff the 16-bit sum is 0, Sign
iff bit 15 of the 16-bit sum is set, Carry iff `a + b ≥ 2 ^ 16`, Overflow
iff the signed sum lies outside `[-32768, 32767]`. -/
theorem add16_flags (r : SBTRegs) (a b : Nat) (ha : a < 2 ^ 16) (hb : b < 2 ^ 16)
    (hu : r.uresult = a + b) (hs : r.sresult = sext16 a + sext16 b) :
    (getZF r = true ↔ (a + b) % 2 ^ 16 = 0) ∧
    (getSF r = true ↔ ((a + b) % 2 ^ 16).testBit 15 = true) ∧
    (getCF r = true ↔ 2 ^ 16 ≤ a + b) ∧
    (getOF r = true ↔
      (sext16 a + sext16 b < -32768 ∨ 32767 < sext16 a + sext16 b)) := by
  refine ⟨?_, ?_, ?_, ?_⟩
  · unfold getZF
    rw [hu, show (0xFFFF : Nat) = 2 ^ 16 - 1 from rfl, Nat.and_pow_two_sub_one_eq_mod]
    simp
  · unfold getSF
    rw [hu, show (0x8000 : Nat) = 2 ^ 15 from rfl, decide_eq_true_iff, and_two_pow_ne_zero,
      Nat.testBit_mod_two_pow]
    simp
  · unfold getCF
    rw [hu, show (0x10000 : Nat) = 2 ^ 16 from rfl, decide_eq_true_iff, and_two_pow_ne_zero,
      testBit_iff]
    omega
  · have hra : -32768 ≤ sext16 a ∧ sext16 a ≤ 32767 := by
      unfold sext16; split <;> omega
    have hrb : -32768 ≤ sext16 b ∧ sext16 b ≤ 32767 := by
      unfold sext16; split <;> omega
    have hrange : -65536 ≤ r.sresult ∧ r.sresult ≤ 65534 := by
      rw [hs]; omega
    rw [← hs]
    cases hsr : r.sresult with
    | ofNat n =>
      rw [getOF_ofNat r n hsr, decide_eq_true_iff]
      rw [hsr] at hrange
      have h2 : (Int.ofNat n) = (n : Int) := rfl
      rw [h2] at hrange ⊢
      have hn : n < 2 ^ 16 := by omega
      rw [overflow_bits n hn]
      omega
    | negSucc n =>
      rw [getOF_negSucc r n hsr, decide_eq_true_iff]
      rw [hsr] at hrange
      have h2 : Int.negSucc n = -((n : Int) + 1) := by
        rw [Int.negSucc_eq]
      rw [h2] at hrange ⊢
      have hn : n < 2 ^ 16 := by omega
      rw [overflow_bits n hn]
      omega

/-- C19, for `0x7FFF + 1`: no carry, and the signed sum 32768 overflows. -/
theorem add16_flags_witness :
    ((0x7FFF : Nat) < 2 ^ 16 ∧ (1 : Nat) < 2 ^ 16 ∧
      (ofResults (0x7FFF + 1) (sext16 0x7FFF + sext16 1)).uresult = 0x7FFF + 1 ∧
      (ofResults (0x7FFF + 1) (sext16 0x7FFF + sext16 1)).sresult =
        sext16 0x7FFF + sext16 1) ∧
    (getCF (ofResults (0x7FFF + 1) (sext16 0x7FFF + sext16 1)) = true ↔
      2 ^ 16 ≤ 0x7FFF + 1) ∧
    (getOF (ofResults (0x7FFF + 1) (sext16 0x7FFF + sext16 1)) = true ↔
      (sext16 0x7FFF + sext16 1 < -32768 ∨ 32767 < sext16 0x7FFF + sext16 1)) :=
  ⟨⟨by decide, by decide, rfl, rfl⟩,
    (add16_flags (ofResults (0x7FFF + 1) (sext16 0x7FFF + sext16 1)) 0x7FFF 1
      (by decide) (by decide) rfl rfl).2.2.1,
    (add16_flags (ofResults (0x7FFF + 1) (sext16 0x7FFF + sext16 1)) 0x7FFF 1
      (by decide) (by decide) rfl rfl).2.2.2⟩

end SBTRegs

end SBT86
